import Mathlib

/-!
A shallow embedding of the family-tree layout engine of
`src/frontend/src/utils/treeLayout.ts`, together with proofs about its
behaviour.

Modelling conventions:
* JavaScript `Map`s are modelled as insertion-ordered association lists
  (`alGet` / `alSet` mirror `Map.get` / `Map.set`: `set` replaces an
  existing entry in place and appends a fresh key at the end).
* JavaScript `Set`s are modelled as insertion-ordered duplicate-free lists
  (`osAdd` mirrors `Set.add`).
* Pixel coordinates are rationals: every arithmetic operation performed by
  the source (additions, subtractions, halvings of values of modest size)
  is exact on IEEE doubles, so `ℚ` mirrors the JavaScript numbers exactly.
* The couple key, which the source forms by joining the ascending-sorted
  partner ids with commas, is modelled as the ascending-sorted id list
  itself (the join is injective on sorted lists of numerals).
-/

namespace TreeLayout

attribute [local semireducible] Rat.add Rat.sub Rat.mul Rat.inv

/-- An (x, y) coordinate pair, in pixels. -/
structure Pos where
  x : ℚ
  y : ℚ
deriving DecidableEq

/-- `Map.get`: value of the first entry with the given key. -/
def alGet {α β : Type} [DecidableEq α] : List (α × β) → α → Option β
  | [], _ => none
  | (k', v) :: rest, k => if k' = k then some v else alGet rest k

/-- `Map.set`: replace the first entry with the key in place, otherwise
append a fresh entry at the end. -/
def alSet {α β : Type} [DecidableEq α] : List (α × β) → α → β → List (α × β)
  | [], k, v => [(k, v)]
  | (k', v') :: rest, k, v =>
      if k' = k then (k, v) :: rest else (k', v') :: alSet rest k v

/-- `Set.add`: append if not already present. -/
def osAdd (s : List Nat) (a : Nat) : List Nat := if a ∈ s then s else s ++ [a]

/-- `Math.min` of a list (the source only applies it to non-empty lists). -/
def listMin : List ℚ → ℚ
  | [] => 0
  | x :: xs => xs.foldl min x

/-- `Math.max` of a list (the source only applies it to non-empty lists). -/
def listMax : List ℚ → ℚ
  | [] => 0
  | x :: xs => xs.foldl max x

/-- Insert into an ascending-sorted list. -/
def insertAsc {α : Type} [LinearOrder α] (a : α) : List α → List α
  | [] => [a]
  | b :: rest => if a ≤ b then a :: b :: rest else b :: insertAsc a rest

/-- Ascending numeric sort, as `.sort((a, b) => a - b)` produces. -/
def sortAsc {α : Type} [LinearOrder α] (l : List α) : List α := l.foldr insertAsc []

/-! ## The data model (`src/frontend/src/types/models.ts`) -/

/-- Parent-child relationship kind of one `TreeEdge`. -/
inductive Relationship
  | biological
  | nonBiological
deriving DecidableEq

/-- One person in the tree result; only the fields the layout reads are
modelled, plus the display name standing in for the opaque payload. -/
structure TreeNode where
  id : Nat
  display_name : String
  generation : Int
deriving DecidableEq

/-- One parent-child link, tagged with the family it was recorded under. -/
structure TreeEdge where
  parent_id : Nat
  child_id : Nat
  family_id : Nat
  relationship : Relationship
deriving DecidableEq

/-- One family record with its 1-2 partners. -/
structure TreeCouple where
  family_id : Nat
  partner_ids : List Nat
  family_type : Option String
deriving DecidableEq

/-- The input of `computeTreeLayout` (the fields it reads). -/
structure TreeData where
  focus_id : Nat
  nodes : List TreeNode
  edges : List TreeEdge
  couples : List TreeCouple
deriving DecidableEq

/-- Payload of an output React Flow node. -/
inductive RFNodeData
  | person (node : TreeNode) (isFocus : Bool)
  | junction
deriving DecidableEq

/-- An output React Flow node. -/
structure RFNode where
  id : String
  nodeType : String
  position : Pos
  data : RFNodeData
  draggable : Bool
deriving DecidableEq

/-- An output React Flow edge (the routing-relevant fields). -/
structure RFEdge where
  id : String
  source : String
  target : String
  edgeType : String
deriving DecidableEq

/-- The result of `computeTreeLayout`. -/
structure LayoutResult where
  nodes : List RFNode
  edges : List RFEdge
deriving DecidableEq

/-! ## Layout constants (`treeLayout.ts` lines 5-9, 303-304) -/

def NODE_WIDTH : ℚ := 150
def NODE_HEIGHT : ℚ := 190
def H_GAP : ℚ := 40
def V_GAP : ℚ := 100
def COUPLE_GAP : ℚ := 20
def JUNCTION_SIZE : ℚ := 1
def JUNCTION_DROP : ℚ := 40

/-! ## Derived lookup tables -/

/-- `nodeMap`: id → node. -/
def nodeMap (d : TreeData) : List (Nat × TreeNode) :=
  d.nodes.foldl (fun m n => alSet m n.id n) []

/-- `genGroups`: generation → ids of that generation, in input order. -/
def genGroups (d : TreeData) : List (Int × List Nat) :=
  d.nodes.foldl
    (fun m n => alSet m n.generation ((alGet m n.generation).getD [] ++ [n.id])) []

/-- `childrenByFamily`: family id → set of child ids. -/
def childrenByFamily (d : TreeData) : List (Nat × List Nat) :=
  d.edges.foldl
    (fun m e => alSet m e.family_id (osAdd ((alGet m e.family_id).getD []) e.child_id)) []

/-- Children recorded under a family id (empty set when absent). -/
def childrenOf (d : TreeData) (fid : Nat) : List Nat :=
  (alGet (childrenByFamily d) fid).getD []

/-- The couple key: partner ids sorted ascending. -/
def coupleKey (partnerIds : List Nat) : List Nat := sortAsc partnerIds

/-- First pass of `mergedChildrenByCoupleKey`: group every family's
children under its own couple key. -/
def mergedPass1 (d : TreeData) : List (List Nat × List Nat) :=
  d.couples.foldl
    (fun m c =>
      let kids := childrenOf d c.family_id
      if kids = [] then m
      else
        let key := coupleKey c.partner_ids
        alSet m key (kids.foldl osAdd ((alGet m key).getD []))) []

/-- Second pass: for each 2-partner couple, merge in the children of any
other family whose partner set is a non-empty subset of its partners. -/
def mergedPass2 (d : TreeData) (m0 : List (List Nat × List Nat)) :
    List (List Nat × List Nat) :=
  d.couples.foldl
    (fun m c =>
      if c.partner_ids.length = 2 then
        let key := coupleKey c.partner_ids
        d.couples.foldl
          (fun m' c2 =>
            if c2.family_id = c.family_id then m'
            else if (∀ id ∈ c2.partner_ids, id ∈ c.partner_ids) ∧ c2.partner_ids ≠ [] then
              let kids := childrenOf d c2.family_id
              if kids = [] then m'
              else alSet m' key (kids.foldl osAdd ((alGet m' key).getD []))
            else m') m
      else m) m0

/-- The merged-sibling-group table keyed by couple key. -/
def mergedChildrenByCoupleKey (d : TreeData) : List (List Nat × List Nat) :=
  mergedPass2 d (mergedPass1 d)

/-- Merged child set stored under a couple key (empty when absent). -/
def mergedAt (d : TreeData) (key : List Nat) : List Nat :=
  (alGet (mergedChildrenByCoupleKey d) key).getD []

/-- `getMergedChildren` (lines 166-172): the merged sibling group of a
couple, falling back to the family's own children. -/
def getMergedChildren (d : TreeData) (c : TreeCouple) : List Nat :=
  if c.partner_ids.length = 2 ∧ mergedAt d (coupleKey c.partner_ids) ≠ [] then
    mergedAt d (coupleKey c.partner_ids)
  else childrenOf d c.family_id

/-! ## Ordering within generations (lines 101-139) -/

/-- Partners of a couple that exist in `nodeMap` with the given generation. -/
def validPartnersInGen (d : TreeData) (gen : Int) (c : TreeCouple) : List Nat :=
  c.partner_ids.filter fun id =>
    match alGet (nodeMap d) id with
    | some n => decide (n.generation = gen)
    | none => false

/-- One step of the couples-first ordering loop: state is
(ordered ids, placed ids). -/
def orderGenStep (d : TreeData) (gen : Int) (acc : List Nat × List Nat)
    (c : TreeCouple) : List Nat × List Nat :=
  match validPartnersInGen d gen c with
  | [a, b] =>
      if a ∉ acc.2 ∧ b ∉ acc.2 then (acc.1 ++ [a, b], acc.2 ++ [a, b]) else acc
  | _ => acc

/-- Ordering of one generation: couples side by side first, then the
remaining individuals in input order. -/
def orderGen (d : TreeData) (gen : Int) (ids : List Nat) : List Nat :=
  let s := d.couples.foldl (orderGenStep d gen) ([], [])
  (ids.foldl (fun acc id => if id ∈ acc.2 then acc else (acc.1 ++ [id], acc.2 ++ [id])) s).1

/-- Generations present, sorted ascending. -/
def generations (d : TreeData) : List Int :=
  sortAsc ((genGroups d).map (·.1))

/-- `genOrder`: generation → ordered node ids. -/
def genOrderMap (d : TreeData) : List (Int × List Nat) :=
  (generations d).foldl
    (fun m gen => alSet m gen (orderGen d gen ((alGet (genGroups d) gen).getD []))) []

/-! ## Initial positions (lines 141-163) -/

/-- Whether some couple contains both ids (decides the gap to the next
node in the row). -/
def isCouplePair (d : TreeData) (a b : Nat) : Bool :=
  d.couples.any fun c => decide (a ∈ c.partner_ids ∧ b ∈ c.partner_ids)

/-- Lay one generation row out left to right. -/
def placeRow (d : TreeData) (gen : Int) :
    List Nat → ℚ → List (Nat × Pos) → List (Nat × Pos)
  | [], _, p => p
  | id :: rest, x, p =>
      let p' := alSet p id ⟨x, (gen : ℚ) * (NODE_HEIGHT + V_GAP)⟩
      let step : ℚ :=
        match rest with
        | nextId :: _ =>
            if isCouplePair d id nextId then NODE_WIDTH + COUPLE_GAP
            else NODE_WIDTH + H_GAP
        | [] => NODE_WIDTH + H_GAP
      placeRow d gen rest (x + step) p'

/-- The provisional positions after the first two passes. -/
def initialPositions (d : TreeData) : List (Nat × Pos) :=
  (generations d).foldl
    (fun p gen => placeRow d gen ((alGet (genOrderMap d) gen).getD []) 0 p) []

/-! ## The three centering passes (lines 174-269) -/

/-- Whether an id has a position. -/
def hasPos (p : List (Nat × Pos)) (id : Nat) : Bool := (alGet p id).isSome

/-- Position of an id; the default is never read on the guarded paths. -/
def posGetD (p : List (Nat × Pos)) (id : Nat) : Pos := (alGet p id).getD ⟨0, 0⟩

/-- Partners of a couple that currently have positions. -/
def validPartners (p : List (Nat × Pos)) (c : TreeCouple) : List Nat :=
  c.partner_ids.filter (hasPos p)

/-- The suppression test (lines 188-195): some 2-partner couple contains
the sole parent and its merged entry covers all these children. -/
def coveredBy (d : TreeData) (kids : List Nat) (soleParent : Nat) : Bool :=
  d.couples.any fun c =>
    decide (c.partner_ids.length = 2 ∧ soleParent ∈ c.partner_ids ∧
      ∀ kid ∈ kids, kid ∈ mergedAt d (coupleKey c.partner_ids))

/-- Current x positions of the merged children that have positions. -/
def childXsOf (p : List (Nat × Pos)) (kids : List Nat) : List ℚ :=
  kids.filterMap fun kid => (alGet p kid).map Pos.x

/-- Pass (a) for one couple (lines 177-227): center the couple over its
merged children. -/
def stepA (d : TreeData) (p : List (Nat × Pos)) (c : TreeCouple) : List (Nat × Pos) :=
  let kids := getMergedChildren d c
  if kids = [] then p
  else
    let vps := validPartners p c
    if vps = [] then p
    else if vps.length = 1 ∧ coveredBy d kids (vps.headD 0) = true then p
    else
      let childXs := childXsOf p kids
      if childXs = [] then p
      else
        let childCenter := (listMin childXs + listMax childXs + NODE_WIDTH) / 2
        match vps with
        | [a, b] =>
            let coupleStartX := childCenter - (NODE_WIDTH * 2 + COUPLE_GAP) / 2
            let p1 := alSet p a ⟨coupleStartX, (posGetD p a).y⟩
            alSet p1 b ⟨coupleStartX + NODE_WIDTH + COUPLE_GAP, (posGetD p1 b).y⟩
        | [a] => alSet p a ⟨childCenter - NODE_WIDTH / 2, (posGetD p a).y⟩
        | _ => p

/-- Pass (b) for one couple (lines 230-268): shift the merged children as a
rigid block so their center sits under the couple's center. -/
def stepB (d : TreeData) (p : List (Nat × Pos)) (c : TreeCouple) : List (Nat × Pos) :=
  let kids := getMergedChildren d c
  if kids = [] then p
  else
    let vps := validPartners p c
    if vps = [] then p
    else if vps.length = 1 ∧ coveredBy d kids (vps.headD 0) = true then p
    else
      let parentXs := vps.map fun id => (posGetD p id).x
      let parentCenter := (listMin parentXs + listMax parentXs + NODE_WIDTH) / 2
      let kidIds := kids.filter (hasPos p)
      if kidIds = [] then p
      else
        let kidXs := kidIds.map fun id => (posGetD p id).x
        let kidCenter := (listMin kidXs + listMax kidXs + NODE_WIDTH) / 2
        let shift := parentCenter - kidCenter
        kidIds.foldl
          (fun acc kid => alSet acc kid ⟨(posGetD acc kid).x + shift, (posGetD acc kid).y⟩) p

/-- One full centering iteration: pass (a) over all couples, then pass (b). -/
def centerPass (d : TreeData) (p : List (Nat × Pos)) : List (Nat × Pos) :=
  d.couples.foldl (stepB d) (d.couples.foldl (stepA d) p)

/-- The fixed three centering iterations. -/
def centered (d : TreeData) (p : List (Nat × Pos)) : List (Nat × Pos) :=
  centerPass d (centerPass d (centerPass d p))

/-! ## Normalization (lines 271-280) -/

/-- Translate all positions so the minimum x and y become the margin 40.
On an empty map both loops of the source do nothing, which the map over an
empty list mirrors. -/
def normalize (p : List (Nat × Pos)) : List (Nat × Pos) :=
  let minX := listMin (p.map fun e => e.2.x)
  let minY := listMin (p.map fun e => e.2.y)
  p.map fun e => (e.1, ⟨e.2.x - minX + 40, e.2.y - minY + 40⟩)

/-- The final id → position table. -/
def finalPositions (d : TreeData) : List (Nat × Pos) :=
  normalize (centered d (initialPositions d))

/-! ## Output construction (lines 282-427) -/

/-- Person nodes (lines 283-297): one per input node that has a position. -/
def buildPersonNodes (d : TreeData) (p : List (Nat × Pos)) : List RFNode :=
  d.nodes.filterMap fun n =>
    (alGet p n.id).map fun pos =>
      { id := toString n.id, nodeType := "personNode", position := pos,
        data := RFNodeData.person n (decide (n.id = d.focus_id)), draggable := false }

/-- The junction node of one couple (lines 307-343), if it gets one. -/
def junctionFor (d : TreeData) (p : List (Nat × Pos)) (c : TreeCouple) : Option RFNode :=
  let kids := getMergedChildren d c
  if kids = [] then none
  else
    let vps := validPartners p c
    if vps = [] then none
    else if vps.length = 1 ∧ coveredBy d kids (vps.headD 0) = true then none
    else
      let partnerXs := vps.map fun id => (posGetD p id).x
      let partnerY := (posGetD p (vps.headD 0)).y
      let midX := (listMin partnerXs + listMax partnerXs + NODE_WIDTH) / 2
      some { id := "junction-" ++ toString c.family_id, nodeType := "default",
             position := ⟨midX - JUNCTION_SIZE / 2, partnerY + NODE_HEIGHT - JUNCTION_DROP⟩,
             data := RFNodeData.junction, draggable := false }

/-- All junction nodes, in couple order. -/
def junctionNodes (d : TreeData) (p : List (Nat × Pos)) : List RFNode :=
  d.couples.filterMap (junctionFor d p)

/-- `junctionIds`: family id → junction node id. -/
def junctionIds (d : TreeData) (p : List (Nat × Pos)) : List (Nat × String) :=
  d.couples.foldl
    (fun m c =>
      match junctionFor d p c with
      | some node => alSet m c.family_id node.id
      | none => m) []

/-- Couple horizontal connectors (lines 349-365). -/
def coupleEdges (d : TreeData) (p : List (Nat × Pos)) : List RFEdge :=
  d.couples.filterMap fun c =>
    match validPartners p c with
    | [a, b] =>
        some { id := "couple-" ++ toString c.family_id,
               source := toString a, target := toString b, edgeType := "straight" }
    | _ => none

/-- Parent-to-junction edges (lines 368-383); `String(undefined)` is the
source when no partner has a position, as in JavaScript. -/
def parentJunctionEdges (d : TreeData) (p : List (Nat × Pos))
    (jids : List (Nat × String)) : List RFEdge :=
  d.couples.filterMap fun c =>
    match alGet jids c.family_id with
    | none => none
    | some jid =>
        some { id := "parent-junction-" ++ toString c.family_id,
               source :=
                 match validPartners p c with
                 | [] => "undefined"
                 | a :: _ => toString a,
               target := jid, edgeType := "straight" }

/-- Routed source of one child edge (lines 393-411): the family's own
junction, else the first covering 2-partner couple's junction, else the raw
parent id. -/
def childEdgeSource (d : TreeData) (jids : List (Nat × String)) (e : TreeEdge) : String :=
  match alGet jids e.family_id with
  | some jid => jid
  | none =>
      match d.couples.find? (fun c =>
          decide (c.partner_ids.length = 2 ∧
            e.child_id ∈ mergedAt d (coupleKey c.partner_ids) ∧
            (alGet jids c.family_id).isSome = true)) with
      | some c => (alGet jids c.family_id).getD ""
      | none => toString e.parent_id

/-- Identifier of the output edge produced for a raw edge. -/
def childEdgeId (e : TreeEdge) : String :=
  "edge-" ++ toString e.family_id ++ "-" ++ toString e.child_id

/-- Junction-to-child edges (lines 386-425), deduplicated per
(family, child) and skipping edges with an unpositioned endpoint. -/
def buildChildEdges (d : TreeData) (p : List (Nat × Pos))
    (jids : List (Nat × String)) : List RFEdge :=
  (d.edges.foldl
    (fun (acc : List RFEdge × List (Nat × Nat)) e =>
      if hasPos p e.parent_id = true ∧ hasPos p e.child_id = true then
        if (e.family_id, e.child_id) ∈ acc.2 then acc
        else (acc.1 ++ [{ id := childEdgeId e, source := childEdgeSource d jids e,
                          target := toString e.child_id, edgeType := "smoothstep" }],
              acc.2 ++ [(e.family_id, e.child_id)])
      else acc) ([], [])).1

/-- `computeTreeLayout` (lines 28-428). -/
def computeTreeLayout (d : TreeData) : LayoutResult :=
  let p := finalPositions d
  let jids := junctionIds d p
  { nodes := buildPersonNodes d p ++ junctionNodes d p,
    edges := coupleEdges d p ++ parentJunctionEdges d p jids ++ buildChildEdges d p jids }

/-! ## Lemmas about the container primitives -/

section ContainerLemmas

variable {α β γ : Type} [DecidableEq α]

theorem alGet_alSet_self (m : List (α × β)) (k : α) (v : β) :
    alGet (alSet m k v) k = some v := by
  induction m with
  | nil => simp [alSet, alGet]
  | cons e rest ih =>
      obtain ⟨k', v'⟩ := e
      by_cases h : k' = k
      · simp [alSet, h, alGet]
      · simp [alSet, h, alGet, ih]

theorem alGet_alSet_ne (m : List (α × β)) (k k' : α) (v : β) (h : k' ≠ k) :
    alGet (alSet m k v) k' = alGet m k' := by
  have h' : k ≠ k' := fun hh => h hh.symm
  induction m with
  | nil => simp [alSet, alGet, h']
  | cons e rest ih =>
      obtain ⟨k'', v'⟩ := e
      by_cases h2 : k'' = k
      · subst h2
        simp [alSet, alGet, h']
      · simp [alSet, alGet, h2, ih]

theorem alGet_alSet (m : List (α × β)) (k k' : α) (v : β) :
    alGet (alSet m k v) k' = if k' = k then some v else alGet m k' := by
  by_cases h : k' = k
  · subst h; simp [alGet_alSet_self]
  · simp [h, alGet_alSet_ne m k k' v h]

theorem isSome_alGet_alSet (m : List (α × β)) (k k' : α) (v : β)
    (h : (alGet m k').isSome) : (alGet (alSet m k v) k').isSome := by
  rw [alGet_alSet]
  by_cases hk : k' = k <;> simp [hk, h]

theorem isSome_alGet_alSet_iff (m : List (α × β)) (k k' : α) (v : β) :
    (alGet (alSet m k v) k').isSome ↔ k' = k ∨ (alGet m k').isSome := by
  rw [alGet_alSet]
  by_cases hk : k' = k <;> simp [hk]

theorem mem_of_alGet {m : List (α × β)} {k : α} {v : β} (h : alGet m k = some v) :
    (k, v) ∈ m := by
  induction m with
  | nil => simp [alGet] at h
  | cons e rest ih =>
      obtain ⟨k', v'⟩ := e
      by_cases h2 : k' = k
      · subst h2
        simp [alGet] at h
        simp [h]
      · simp [alGet, h2] at h
        simp [ih h]

/-- The keys of an association list. -/
def alKeys (m : List (α × β)) : List α := m.map Prod.fst

theorem isSome_alGet_iff_mem_keys (m : List (α × β)) (k : α) :
    (alGet m k).isSome ↔ k ∈ alKeys m := by
  induction m with
  | nil => simp [alGet, alKeys]
  | cons e rest ih =>
      obtain ⟨k', v'⟩ := e
      by_cases h : k' = k
      · subst h; simp [alGet, alKeys]
      · have h' : k ≠ k' := fun hh => h hh.symm
        simp [alGet, alKeys, h, h', ih]

theorem alKeys_alSet_of_isSome (m : List (α × β)) (k : α) (v : β)
    (h : (alGet m k).isSome) : alKeys (alSet m k v) = alKeys m := by
  induction m with
  | nil => simp [alGet] at h
  | cons e rest ih =>
      obtain ⟨k', v'⟩ := e
      by_cases h2 : k' = k
      · simp [alSet, h2, alKeys]
      · simp [alGet, h2] at h
        simp [alSet, h2, alKeys] at ih ⊢
        exact ih h

theorem alKeys_alSet (m : List (α × β)) (k : α) (v : β) :
    alKeys (alSet m k v) = if (alGet m k).isSome then alKeys m else alKeys m ++ [k] := by
  induction m with
  | nil => simp [alSet, alGet, alKeys]
  | cons e rest ih =>
      obtain ⟨k', v'⟩ := e
      by_cases h : k' = k
      · subst h; simp [alSet, alGet, alKeys]
      · simp only [alKeys] at ih
        simp only [alSet, if_neg h, alGet, alKeys, List.map_cons, ih]
        by_cases h2 : (alGet rest k).isSome <;> simp [h2]

theorem nodup_alKeys_alSet (m : List (α × β)) (k : α) (v : β)
    (h : (alKeys m).Nodup) : (alKeys (alSet m k v)).Nodup := by
  rw [alKeys_alSet]
  by_cases h2 : (alGet m k).isSome
  · simpa [h2] using h
  · have hk : k ∉ alKeys m := fun hm => h2 ((isSome_alGet_iff_mem_keys m k).mpr hm)
    simp [h2, List.nodup_append, h, hk]

theorem alGet_of_mem_of_nodup {m : List (α × β)} {k : α} {v : β}
    (hnd : (alKeys m).Nodup) (h : (k, v) ∈ m) : alGet m k = some v := by
  induction m with
  | nil => simp at h
  | cons e rest ih =>
      obtain ⟨k', v'⟩ := e
      rw [alKeys, List.map_cons, List.nodup_cons] at hnd
      rcases List.mem_cons.mp h with h1 | h1
      · simp only [Prod.mk.injEq] at h1
        obtain ⟨rfl, rfl⟩ := h1
        simp [alGet]
      · by_cases h2 : k' = k
        · subst h2
          exact absurd (List.mem_map_of_mem Prod.fst h1) hnd.1
        · simp only [alGet, if_neg h2]
          exact ih hnd.2 h1

theorem alGet_map_entry (m : List (α × β)) (g : β → γ) (k : α) :
    alGet (m.map fun e => (e.1, g e.2)) k = (alGet m k).map g := by
  induction m with
  | nil => simp [alGet]
  | cons e rest ih =>
      obtain ⟨k', v'⟩ := e
      by_cases h : k' = k <;> simp [alGet, h, ih]

theorem alKeys_map_entry (m : List (α × β)) (g : β → γ) :
    alKeys (m.map fun e => (e.1, g e.2)) = alKeys m := by
  induction m with
  | nil => rfl
  | cons e rest ih =>
      simp only [alKeys, List.map_cons] at ih ⊢
      rw [ih]

theorem alGet_foldl_alSet (F : α → β) (l : List α) (m0 : List (α × β)) (k : α) :
    alGet (l.foldl (fun m x => alSet m x (F x)) m0) k
      = if k ∈ l then some (F k) else alGet m0 k := by
  induction l generalizing m0 with
  | nil => simp
  | cons x rest ih =>
      simp only [List.foldl_cons]
      rw [ih]
      by_cases hr : k ∈ rest
      · simp [hr]
      · by_cases hx : k = x
        · subst hx; simp [hr, alGet_alSet_self]
        · simp [hr, hx, alGet_alSet_ne _ _ _ _ hx]

theorem mem_osAdd {s : List Nat} {a x : Nat} :
    x ∈ osAdd s a ↔ x ∈ s ∨ x = a := by
  unfold osAdd
  by_cases h : a ∈ s
  · simp only [if_pos h]
    constructor
    · exact Or.inl
    · rintro (hx | rfl)
      · exact hx
      · exact h
  · simp [if_neg h]

theorem mem_foldl_osAdd (l s : List Nat) (x : Nat) :
    x ∈ l.foldl osAdd s ↔ x ∈ s ∨ x ∈ l := by
  induction l generalizing s with
  | nil => simp
  | cons a rest ih =>
      simp only [List.foldl_cons, ih, mem_osAdd, List.mem_cons]
      tauto

theorem foldl_min_le_init (l : List ℚ) (a : ℚ) : l.foldl min a ≤ a := by
  induction l generalizing a with
  | nil => simp
  | cons x rest ih =>
      simp only [List.foldl_cons]
      exact le_trans (ih (min a x)) (min_le_left a x)

theorem foldl_min_le_of_mem {l : List ℚ} {x : ℚ} (a : ℚ) (h : x ∈ l) :
    l.foldl min a ≤ x := by
  induction l generalizing a with
  | nil => simp at h
  | cons y rest ih =>
      simp only [List.foldl_cons]
      rcases List.mem_cons.mp h with rfl | h2
      · exact le_trans (foldl_min_le_init rest (min a x)) (min_le_right a x)
      · exact ih _ h2

theorem listMin_le {l : List ℚ} {x : ℚ} (h : x ∈ l) : listMin l ≤ x := by
  cases l with
  | nil => simp at h
  | cons y rest =>
      rcases List.mem_cons.mp h with rfl | h2
      · exact foldl_min_le_init rest x
      · exact foldl_min_le_of_mem y h2

theorem foldl_min_mem (l : List ℚ) (a : ℚ) : l.foldl min a = a ∨ l.foldl min a ∈ l := by
  induction l generalizing a with
  | nil => simp
  | cons x rest ih =>
      simp only [List.foldl_cons]
      rcases ih (min a x) with h | h
      · rcases min_choice a x with h2 | h2
        · exact Or.inl (h.trans h2)
        · exact Or.inr (by rw [h, h2]; exact List.mem_cons_self x rest)
      · exact Or.inr (List.mem_cons_of_mem x h)

theorem listMin_mem {l : List ℚ} (h : l ≠ []) : listMin l ∈ l := by
  cases l with
  | nil => exact absurd rfl h
  | cons y rest =>
      rcases foldl_min_mem rest y with h2 | h2
      · rw [listMin, h2]; exact List.mem_cons_self y rest
      · exact List.mem_cons_of_mem y h2

theorem le_listMin {l : List ℚ} {c : ℚ} (h : l ≠ []) (hb : ∀ x ∈ l, c ≤ x) :
    c ≤ listMin l := hb _ (listMin_mem h)

theorem min_sub_add (a b m c : ℚ) : min (a - m + c) (b - m + c) = min a b - m + c := by
  rcases le_total a b with h | h
  · rw [min_eq_left h, min_eq_left (by linarith)]
  · rw [min_eq_right h, min_eq_right (by linarith)]

theorem foldl_min_map_sub_add (l : List ℚ) (a m c : ℚ) :
    (l.map fun x => x - m + c).foldl min (a - m + c) = l.foldl min a - m + c := by
  induction l generalizing a with
  | nil => simp
  | cons x rest ih =>
      simp only [List.map_cons, List.foldl_cons, min_sub_add]
      exact ih (min a x)

theorem listMin_map_sub_add {l : List ℚ} (h : l ≠ []) (m c : ℚ) :
    listMin (l.map fun x => x - m + c) = listMin l - m + c := by
  cases l with
  | nil => exact absurd rfl h
  | cons y rest => simp only [List.map_cons, listMin, foldl_min_map_sub_add]

theorem mem_insertAsc {α' : Type} [LinearOrder α'] {a x : α'} {l : List α'} :
    x ∈ insertAsc a l ↔ x = a ∨ x ∈ l := by
  induction l with
  | nil => simp [insertAsc]
  | cons b rest ih =>
      by_cases h : a ≤ b
      · simp [insertAsc, h]
      · simp [insertAsc, h, ih]
        tauto

theorem mem_sortAsc {α' : Type} [LinearOrder α'] {x : α'} {l : List α'} :
    x ∈ sortAsc l ↔ x ∈ l := by
  induction l with
  | nil => simp [sortAsc]
  | cons b rest ih =>
      simp only [sortAsc, List.foldr_cons] at ih ⊢
      rw [mem_insertAsc, ih, List.mem_cons]

theorem length_insertAsc {α' : Type} [LinearOrder α'] (a : α') (l : List α') :
    (insertAsc a l).length = l.length + 1 := by
  induction l with
  | nil => simp [insertAsc]
  | cons b rest ih =>
      by_cases h : a ≤ b <;> simp [insertAsc, h, ih]

theorem length_sortAsc {α' : Type} [LinearOrder α'] (l : List α') :
    (sortAsc l).length = l.length := by
  induction l with
  | nil => rfl
  | cons b rest ih =>
      simp only [sortAsc, List.foldr_cons] at ih ⊢
      rw [length_insertAsc, ih, List.length_cons]

end ContainerLemmas

/-! ## Characterizations of the derived lookup tables -/

theorem mem_coupleKey {x : Nat} {l : List Nat} : x ∈ coupleKey l ↔ x ∈ l := mem_sortAsc

theorem length_coupleKey (l : List Nat) : (coupleKey l).length = l.length := length_sortAsc l

theorem genGroups_step_mem (m0 : List (Int × List Nat)) (n : TreeNode) (g : Int) (id : Nat) :
    id ∈ (alGet (alSet m0 n.generation ((alGet m0 n.generation).getD [] ++ [n.id])) g).getD []
      ↔ id ∈ (alGet m0 g).getD [] ∨ (n.id = id ∧ n.generation = g) := by
  rw [alGet_alSet]
  by_cases hg : g = n.generation
  · subst hg
    simp [List.mem_append, eq_comm]
  · have hg' : ¬n.generation = g := fun h => hg h.symm
    simp [hg, hg']

theorem genGroups_mem (d : TreeData) (g : Int) (id : Nat) :
    id ∈ (alGet (genGroups d) g).getD [] ↔ ∃ n ∈ d.nodes, n.id = id ∧ n.generation = g := by
  have main : ∀ (ns : List TreeNode) (m0 : List (Int × List Nat)),
      id ∈ (alGet (ns.foldl
          (fun m n => alSet m n.generation ((alGet m n.generation).getD [] ++ [n.id])) m0) g).getD []
        ↔ id ∈ (alGet m0 g).getD [] ∨ ∃ n ∈ ns, n.id = id ∧ n.generation = g := by
    intro ns
    induction ns with
    | nil => intro m0; simp
    | cons n rest ih =>
        intro m0
        simp only [List.foldl_cons]
        rw [ih, genGroups_step_mem]
        simp only [List.mem_cons]
        constructor
        · rintro ((h | h) | ⟨n', hn', h⟩)
          · exact Or.inl h
          · exact Or.inr ⟨n, Or.inl rfl, h⟩
          · exact Or.inr ⟨n', Or.inr hn', h⟩
        · rintro (h | ⟨n', hn' | hn', h⟩)
          · exact Or.inl (Or.inl h)
          · exact Or.inl (Or.inr (hn' ▸ h))
          · exact Or.inr ⟨n', hn', h⟩
  simpa [genGroups, alGet] using main d.nodes []

theorem childrenBy_step_mem (m0 : List (Nat × List Nat)) (e : TreeEdge) (f k : Nat) :
    k ∈ (alGet (alSet m0 e.family_id
          (osAdd ((alGet m0 e.family_id).getD []) e.child_id)) f).getD []
      ↔ k ∈ (alGet m0 f).getD [] ∨ (e.family_id = f ∧ e.child_id = k) := by
  rw [alGet_alSet]
  by_cases hf : f = e.family_id
  · subst hf
    simp [mem_osAdd, eq_comm]
  · have hf' : ¬e.family_id = f := fun h => hf h.symm
    simp [hf, hf']

theorem childrenOf_mem (d : TreeData) (f k : Nat) :
    k ∈ childrenOf d f ↔ ∃ e ∈ d.edges, e.family_id = f ∧ e.child_id = k := by
  have main : ∀ (es : List TreeEdge) (m0 : List (Nat × List Nat)),
      k ∈ (alGet (es.foldl
          (fun m e => alSet m e.family_id (osAdd ((alGet m e.family_id).getD []) e.child_id)) m0) f).getD []
        ↔ k ∈ (alGet m0 f).getD [] ∨ ∃ e ∈ es, e.family_id = f ∧ e.child_id = k := by
    intro es
    induction es with
    | nil => intro m0; simp
    | cons e rest ih =>
        intro m0
        simp only [List.foldl_cons]
        rw [ih, childrenBy_step_mem]
        simp only [List.mem_cons]
        constructor
        · rintro ((h | h) | ⟨e', he', h⟩)
          · exact Or.inl h
          · exact Or.inr ⟨e, Or.inl rfl, h⟩
          · exact Or.inr ⟨e', Or.inr he', h⟩
        · rintro (h | ⟨e', he' | he', h⟩)
          · exact Or.inl (Or.inl h)
          · exact Or.inl (Or.inr (he' ▸ h))
          · exact Or.inr ⟨e', he', h⟩
  simpa [childrenOf, childrenByFamily, alGet] using main d.edges []

theorem nodeMap_fold_some {ns : List TreeNode} {m0 : List (Nat × TreeNode)} {id : Nat}
    {n : TreeNode}
    (h : alGet (ns.foldl (fun m n' => alSet m n'.id n') m0) id = some n) :
    alGet m0 id = some n ∨ (n ∈ ns ∧ n.id = id) := by
  induction ns generalizing m0 with
  | nil => exact Or.inl h
  | cons n' rest ih =>
      simp only [List.foldl_cons] at h
      rcases ih h with h1 | h1
      · rw [alGet_alSet] at h1
        by_cases hid : id = n'.id
        · rw [if_pos hid] at h1
          have : n' = n := by injection h1
          subst this
          exact Or.inr ⟨List.mem_cons_self _ _, hid.symm⟩
        · rw [if_neg hid] at h1
          exact Or.inl h1
      · exact Or.inr ⟨List.mem_cons_of_mem _ h1.1, h1.2⟩

theorem nodeMap_some {d : TreeData} {id : Nat} {n : TreeNode}
    (h : alGet (nodeMap d) id = some n) : n ∈ d.nodes ∧ n.id = id := by
  rcases @nodeMap_fold_some d.nodes [] id n h with h1 | h1
  · simp [alGet] at h1
  · exact h1

theorem nodeMap_fold_untouched (ns : List TreeNode) (m0 : List (Nat × TreeNode)) (id : Nat)
    (h : ∀ n' ∈ ns, n'.id ≠ id) :
    alGet (ns.foldl (fun m n' => alSet m n'.id n') m0) id = alGet m0 id := by
  induction ns generalizing m0 with
  | nil => rfl
  | cons n' rest ih =>
      simp only [List.foldl_cons]
      rw [ih _ fun x hx => h x (List.mem_cons_of_mem _ hx)]
      exact alGet_alSet_ne _ _ _ _ fun hh => h n' (List.mem_cons_self _ _) hh.symm

theorem nodeMap_self {d : TreeData} (hnd : (d.nodes.map TreeNode.id).Nodup)
    {n : TreeNode} (h : n ∈ d.nodes) : alGet (nodeMap d) n.id = some n := by
  have main : ∀ (ns : List TreeNode) (m0 : List (Nat × TreeNode)),
      (ns.map TreeNode.id).Nodup → n ∈ ns →
      alGet (ns.foldl (fun m n' => alSet m n'.id n') m0) n.id = some n := by
    intro ns
    induction ns with
    | nil => intro m0 _ h2; simp at h2
    | cons n' rest ih =>
        intro m0 hnd2 h2
        rw [List.map_cons, List.nodup_cons] at hnd2
        rcases List.mem_cons.mp h2 with rfl | h3
        · simp only [List.foldl_cons]
          have huntouched : ∀ x ∈ rest, x.id ≠ n.id := by
            intro x hx hexx
            exact hnd2.1 (hexx ▸ List.mem_map_of_mem TreeNode.id hx)
          rw [nodeMap_fold_untouched _ _ _ huntouched, alGet_alSet_self]
        · simp only [List.foldl_cons]
          exact ih _ hnd2.2 h3
  exact main d.nodes [] hnd h

theorem nodeMap_isSome {d : TreeData} {n : TreeNode} (h : n ∈ d.nodes) :
    (alGet (nodeMap d) n.id).isSome := by
  have main : ∀ (ns : List TreeNode) (m0 : List (Nat × TreeNode)),
      n ∈ ns ∨ (alGet m0 n.id).isSome →
      (alGet (ns.foldl (fun m n' => alSet m n'.id n') m0) n.id).isSome := by
    intro ns
    induction ns with
    | nil =>
        intro m0 h2
        rcases h2 with h2 | h2
        · simp at h2
        · exact h2
    | cons n' rest ih =>
        intro m0 h2
        simp only [List.foldl_cons]
        rcases h2 with h2 | h2
        · rcases List.mem_cons.mp h2 with rfl | h3
          · exact ih _ (Or.inr (by rw [alGet_alSet_self]; rfl))
          · exact ih _ (Or.inl h3)
        · exact ih _ (Or.inr (isSome_alGet_alSet _ _ _ _ h2))
  exact main d.nodes [] (Or.inl h)

/-! ## Characterization of the merged-children table -/

theorem mergedOsAdd_step_mem (m0 : List (List Nat × List Nat)) (key K : List Nat)
    (kids : List Nat) (k : Nat) :
    k ∈ (alGet (alSet m0 key (kids.foldl osAdd ((alGet m0 key).getD []))) K).getD []
      ↔ k ∈ (alGet m0 K).getD [] ∨ (key = K ∧ k ∈ kids) := by
  rw [alGet_alSet]
  by_cases hK : K = key
  · subst hK
    simp [mem_foldl_osAdd]
  · have hK' : ¬key = K := fun h => hK h.symm
    simp [hK, hK']

theorem mergedPass1_mem (d : TreeData) (K : List Nat) (k : Nat) :
    k ∈ (alGet (mergedPass1 d) K).getD []
      ↔ ∃ c ∈ d.couples, coupleKey c.partner_ids = K ∧ k ∈ childrenOf d c.family_id := by
  have main : ∀ (cs : List TreeCouple) (m0 : List (List Nat × List Nat)),
      k ∈ (alGet (cs.foldl
          (fun m c =>
            let kids := childrenOf d c.family_id
            if kids = [] then m
            else
              let key := coupleKey c.partner_ids
              alSet m key (kids.foldl osAdd ((alGet m key).getD []))) m0) K).getD []
        ↔ k ∈ (alGet m0 K).getD []
          ∨ ∃ c ∈ cs, coupleKey c.partner_ids = K ∧ k ∈ childrenOf d c.family_id := by
    intro cs
    induction cs with
    | nil => intro m0; simp
    | cons c rest ih =>
        intro m0
        simp only [List.foldl_cons]
        rw [ih]
        by_cases hkids : childrenOf d c.family_id = []
        · simp only [hkids, if_pos rfl, List.mem_cons]
          constructor
          · rintro (h | ⟨c', hc', h⟩)
            · exact Or.inl h
            · exact Or.inr ⟨c', Or.inr hc', h⟩
          · rintro (h | ⟨c', hc' | hc', h⟩)
            · exact Or.inl h
            · rw [hc', hkids] at h
              simp at h
            · exact Or.inr ⟨c', hc', h⟩
        · simp only [if_neg hkids]
          rw [mergedOsAdd_step_mem]
          simp only [List.mem_cons]
          constructor
          · rintro ((h | h) | ⟨c', hc', h⟩)
            · exact Or.inl h
            · exact Or.inr ⟨c, Or.inl rfl, h⟩
            · exact Or.inr ⟨c', Or.inr hc', h⟩
          · rintro (h | ⟨c', hc' | hc', h⟩)
            · exact Or.inl (Or.inl h)
            · exact Or.inl (Or.inr (hc' ▸ h))
            · exact Or.inr ⟨c', hc', h⟩
  have base : k ∈ (alGet ([] : List (List Nat × List Nat)) K).getD [] ↔ False := by
    simp [alGet]
  rw [mergedPass1]
  rw [main d.couples []]
  rw [base]
  simp

/-- The inclusion condition of the second merge pass, for couple `c`
absorbing the children of `c2`. -/
def subsetFamily (c c2 : TreeCouple) : Prop :=
  c2.family_id ≠ c.family_id ∧ (∀ x ∈ c2.partner_ids, x ∈ c.partner_ids) ∧
    c2.partner_ids ≠ []

instance (c c2 : TreeCouple) : Decidable (subsetFamily c c2) := by
  unfold subsetFamily; infer_instance

theorem mergedPass2_inner_mem (d : TreeData) (c : TreeCouple)
    (cs : List TreeCouple) (m0 : List (List Nat × List Nat)) (K : List Nat) (k : Nat) :
    k ∈ (alGet (cs.foldl
        (fun m' c2 =>
          if c2.family_id = c.family_id then m'
          else if (∀ id ∈ c2.partner_ids, id ∈ c.partner_ids) ∧ c2.partner_ids ≠ [] then
            let kids := childrenOf d c2.family_id
            if kids = [] then m'
            else alSet m' (coupleKey c.partner_ids)
                (kids.foldl osAdd ((alGet m' (coupleKey c.partner_ids)).getD []))
          else m') m0) K).getD []
      ↔ k ∈ (alGet m0 K).getD []
        ∨ (coupleKey c.partner_ids = K ∧
            ∃ c2 ∈ cs, subsetFamily c c2 ∧ k ∈ childrenOf d c2.family_id) := by
  induction cs generalizing m0 with
  | nil => simp
  | cons c2 rest ih =>
      simp only [List.foldl_cons]
      rw [ih]
      by_cases hfid : c2.family_id = c.family_id
      · simp only [if_pos hfid, List.mem_cons]
        constructor
        · rintro (h | ⟨hk2, c3, hc3, h⟩)
          · exact Or.inl h
          · exact Or.inr ⟨hk2, c3, Or.inr hc3, h⟩
        · rintro (h | ⟨hk2, c3, hc3 | hc3, h3, h4⟩)
          · exact Or.inl h
          · exact absurd (hc3 ▸ hfid) h3.1
          · exact Or.inr ⟨hk2, c3, hc3, h3, h4⟩
      · simp only [if_neg hfid]
        by_cases hsub : (∀ id ∈ c2.partner_ids, id ∈ c.partner_ids) ∧ c2.partner_ids ≠ []
        · simp only [if_pos hsub]
          by_cases hkids : childrenOf d c2.family_id = []
          · simp only [hkids, if_pos rfl, List.mem_cons]
            constructor
            · rintro (h | ⟨hk2, c3, hc3, h⟩)
              · exact Or.inl h
              · exact Or.inr ⟨hk2, c3, Or.inr hc3, h⟩
            · rintro (h | ⟨hk2, c3, hc3 | hc3, h3, h4⟩)
              · exact Or.inl h
              · rw [hc3, hkids] at h4
                simp at h4
              · exact Or.inr ⟨hk2, c3, hc3, h3, h4⟩
          · simp only [if_neg hkids]
            rw [mergedOsAdd_step_mem]
            simp only [List.mem_cons]
            constructor
            · rintro ((h | h) | ⟨hk2, c3, hc3, h⟩)
              · exact Or.inl h
              · exact Or.inr ⟨h.1, c2, Or.inl rfl, ⟨hfid, hsub.1, hsub.2⟩, h.2⟩
              · exact Or.inr ⟨hk2, c3, Or.inr hc3, h⟩
            · rintro (h | ⟨hk2, c3, hc3 | hc3, h3, h4⟩)
              · exact Or.inl (Or.inl h)
              · subst hc3
                exact Or.inl (Or.inr ⟨hk2, h4⟩)
              · exact Or.inr ⟨hk2, c3, hc3, h3, h4⟩
        · simp only [if_neg hsub, List.mem_cons]
          constructor
          · rintro (h | ⟨hk2, c3, hc3, h⟩)
            · exact Or.inl h
            · exact Or.inr ⟨hk2, c3, Or.inr hc3, h⟩
          · rintro (h | ⟨hk2, c3, hc3 | hc3, h3, h4⟩)
            · exact Or.inl h
            · exact absurd ⟨h3.2.1, h3.2.2⟩ (hc3 ▸ hsub)
            · exact Or.inr ⟨hk2, c3, hc3, h3, h4⟩

theorem mergedPass2_mem (d : TreeData) (m0 : List (List Nat × List Nat))
    (K : List Nat) (k : Nat) :
    k ∈ (alGet (mergedPass2 d m0) K).getD []
      ↔ k ∈ (alGet m0 K).getD []
        ∨ ∃ c ∈ d.couples, c.partner_ids.length = 2 ∧ coupleKey c.partner_ids = K ∧
            ∃ c2 ∈ d.couples, subsetFamily c c2 ∧ k ∈ childrenOf d c2.family_id := by
  have main : ∀ (cs : List TreeCouple) (m0' : List (List Nat × List Nat)),
      k ∈ (alGet (cs.foldl
          (fun m c =>
            if c.partner_ids.length = 2 then
              d.couples.foldl
                (fun m' c2 =>
                  if c2.family_id = c.family_id then m'
                  else if (∀ id ∈ c2.partner_ids, id ∈ c.partner_ids) ∧ c2.partner_ids ≠ [] then
                    let kids := childrenOf d c2.family_id
                    if kids = [] then m'
                    else alSet m' (coupleKey c.partner_ids)
                        (kids.foldl osAdd ((alGet m' (coupleKey c.partner_ids)).getD []))
                  else m') m
            else m) m0') K).getD []
        ↔ k ∈ (alGet m0' K).getD []
          ∨ ∃ c ∈ cs, c.partner_ids.length = 2 ∧ coupleKey c.partner_ids = K ∧
              ∃ c2 ∈ d.couples, subsetFamily c c2 ∧ k ∈ childrenOf d c2.family_id := by
    intro cs
    induction cs with
    | nil => intro m0'; simp
    | cons c rest ih =>
        intro m0'
        simp only [List.foldl_cons]
        rw [ih]
        by_cases hlen : c.partner_ids.length = 2
        · simp only [if_pos hlen]
          rw [mergedPass2_inner_mem]
          simp only [List.mem_cons]
          constructor
          · rintro ((h | ⟨hk2, c2, hc2, h3, h4⟩) | ⟨c', hc', h⟩)
            · exact Or.inl h
            · exact Or.inr ⟨c, Or.inl rfl, hlen, hk2, c2, hc2, h3, h4⟩
            · exact Or.inr ⟨c', Or.inr hc', h⟩
          · rintro (h | ⟨c', hc' | hc', h2, h3, c2, hc2, h4, h5⟩)
            · exact Or.inl (Or.inl h)
            · subst hc'
              exact Or.inl (Or.inr ⟨h3, c2, hc2, h4, h5⟩)
            · exact Or.inr ⟨c', hc', h2, h3, c2, hc2, h4, h5⟩
        · simp only [if_neg hlen, List.mem_cons]
          constructor
          · rintro (h | ⟨c', hc', h⟩)
            · exact Or.inl h
            · exact Or.inr ⟨c', Or.inr hc', h⟩
          · rintro (h | ⟨c', hc' | hc', h2, h⟩)
            · exact Or.inl h
            · exact absurd (hc' ▸ h2) hlen
            · exact Or.inr ⟨c', hc', h2, h⟩
  exact main d.couples m0

theorem mergedAt_mem (d : TreeData) (K : List Nat) (k : Nat) :
    k ∈ mergedAt d K
      ↔ (∃ c ∈ d.couples, coupleKey c.partner_ids = K ∧ k ∈ childrenOf d c.family_id)
        ∨ ∃ c ∈ d.couples, c.partner_ids.length = 2 ∧ coupleKey c.partner_ids = K ∧
            ∃ c2 ∈ d.couples, subsetFamily c c2 ∧ k ∈ childrenOf d c2.family_id := by
  rw [mergedAt, mergedChildrenByCoupleKey, mergedPass2_mem, mergedPass1_mem]

theorem mem_mergedAt_of_children (d : TreeData) {c : TreeCouple} (hc : c ∈ d.couples)
    {k : Nat} (hk : k ∈ childrenOf d c.family_id) :
    k ∈ mergedAt d (coupleKey c.partner_ids) :=
  (mergedAt_mem d _ k).mpr (Or.inl ⟨c, hc, rfl, hk⟩)

theorem mergedAt_couple_iff (d : TreeData) (C : TreeCouple) (hC : C ∈ d.couples)
    (h2 : C.partner_ids.length = 2) (k : Nat) :
    k ∈ mergedAt d (coupleKey C.partner_ids)
      ↔ k ∈ childrenOf d C.family_id
        ∨ ∃ c' ∈ d.couples, c'.family_id ≠ C.family_id ∧ c'.partner_ids ≠ [] ∧
            (∀ x ∈ c'.partner_ids, x ∈ C.partner_ids) ∧ k ∈ childrenOf d c'.family_id := by
  rw [mergedAt_mem]
  constructor
  · rintro (⟨c, hc, hkey, hk⟩ | ⟨c, hc, hlen, hkey, c2, hc2, hsf, hk⟩)
    · by_cases hfid : c.family_id = C.family_id
      · exact Or.inl (hfid ▸ hk)
      · refine Or.inr ⟨c, hc, hfid, ?_, ?_, hk⟩
        · intro hnil
          have hl : c.partner_ids.length = C.partner_ids.length := by
            rw [← length_coupleKey, hkey, length_coupleKey]
          rw [hnil, h2] at hl
          simp at hl
        · exact fun x hx => mem_coupleKey.mp (hkey ▸ mem_coupleKey.mpr hx)
    · by_cases hfid : c2.family_id = C.family_id
      · exact Or.inl (hfid ▸ hk)
      · refine Or.inr ⟨c2, hc2, hfid, hsf.2.2, ?_, hk⟩
        intro x hx
        exact mem_coupleKey.mp (hkey ▸ mem_coupleKey.mpr (hsf.2.1 x hx))
  · rintro (hk | ⟨c', hc', hfid, hne, hsub, hk⟩)
    · exact Or.inl ⟨C, hC, rfl, hk⟩
    · exact Or.inr ⟨C, hC, h2, rfl, c', hc', ⟨hfid, hsub, hne⟩, hk⟩

theorem getMergedChildren_iff (d : TreeData) (C : TreeCouple) (hC : C ∈ d.couples)
    (h2 : C.partner_ids.length = 2) (k : Nat) :
    k ∈ getMergedChildren d C
      ↔ k ∈ childrenOf d C.family_id
        ∨ ∃ c' ∈ d.couples, c'.family_id ≠ C.family_id ∧ c'.partner_ids ≠ [] ∧
            (∀ x ∈ c'.partner_ids, x ∈ C.partner_ids) ∧ k ∈ childrenOf d c'.family_id := by
  unfold getMergedChildren
  by_cases hme : mergedAt d (coupleKey C.partner_ids) = []
  · rw [if_neg (by simp [hme])]
    have hnot : k ∉ mergedAt d (coupleKey C.partner_ids) := by rw [hme]; simp
    constructor
    · intro hk
      exact ((hnot ((mergedAt_couple_iff d C hC h2 k).mpr (Or.inl hk))).elim)
    · intro hr
      exact ((hnot ((mergedAt_couple_iff d C hC h2 k).mpr hr)).elim)
  · rw [if_pos ⟨h2, hme⟩]
    exact mergedAt_couple_iff d C hC h2 k

/-! ## Ordering and initial-position infrastructure -/

/-- x coordinate stored for an id. -/
def xAt (p : List (Nat × Pos)) (id : Nat) : Option ℚ := (alGet p id).map Pos.x

/-- y coordinate stored for an id. -/
def yAt (p : List (Nat × Pos)) (id : Nat) : Option ℚ := (alGet p id).map Pos.y

theorem mem_validPartnersInGen {d : TreeData} {gen : Int} {c : TreeCouple} {x : Nat}
    (h : x ∈ validPartnersInGen d gen c) :
    x ∈ c.partner_ids ∧ ∃ n, alGet (nodeMap d) x = some n ∧ n.generation = gen := by
  unfold validPartnersInGen at h
  have h2 := List.mem_filter.mp h
  refine ⟨h2.1, ?_⟩
  rcases halg : alGet (nodeMap d) x with _ | n
  · rw [halg] at h2
    simp at h2
  · rw [halg] at h2
    exact ⟨n, rfl, by simpa using h2.2⟩

theorem orderGen_fold1_inv (d : TreeData) (gen : Int) (R : Nat → Prop)
    (hR : ∀ c x, x ∈ validPartnersInGen d gen c → R x) :
    ∀ (cs : List TreeCouple) (acc : List Nat × List Nat),
      (∀ x ∈ acc.1, R x) → ∀ x ∈ (cs.foldl (orderGenStep d gen) acc).1, R x := by
  intro cs
  induction cs with
  | nil => intro acc h; exact h
  | cons c rest ih =>
      intro acc h
      apply ih
      unfold orderGenStep
      split
      · next a b heq =>
          split
          · intro x hx
            rcases List.mem_append.mp hx with hx | hx
            · exact h x hx
            · refine hR c x ?_
              rw [heq]
              exact hx
          · exact h
      · exact h

theorem orderGen_fold2_inv (R : Nat → Prop) (ids : List Nat) (hids : ∀ x ∈ ids, R x) :
    ∀ acc : List Nat × List Nat, (∀ x ∈ acc.1, R x) →
      ∀ x ∈ (ids.foldl
        (fun acc id => if id ∈ acc.2 then acc else (acc.1 ++ [id], acc.2 ++ [id])) acc).1, R x := by
  induction ids with
  | nil => intro acc h; exact h
  | cons i rest ih =>
      intro acc h
      simp only [List.foldl_cons]
      apply ih fun x hx => hids x (List.mem_cons_of_mem _ hx)
      split
      · exact h
      · intro x hx
        rcases List.mem_append.mp hx with hx | hx
        · exact h x hx
        · simp at hx
          exact hx ▸ hids i (List.mem_cons_self _ _)

theorem orderGen_sub (d : TreeData) (gen : Int) (ids : List Nat) (id : Nat)
    (h : id ∈ orderGen d gen ids) :
    id ∈ ids ∨ ∃ n, alGet (nodeMap d) id = some n ∧ n.generation = gen := by
  unfold orderGen at h
  exact orderGen_fold2_inv
    (fun x => x ∈ ids ∨ ∃ n, alGet (nodeMap d) x = some n ∧ n.generation = gen)
    ids (fun x hx => Or.inl hx) _
    (orderGen_fold1_inv d gen _ (fun c x hx => Or.inr (mem_validPartnersInGen hx).2)
      d.couples ([], []) (by simp)) id h

/-- Invariant of the ordering folds: the placed set and the ordered list
have the same members. -/
def placedInv (acc : List Nat × List Nat) : Prop := ∀ x, x ∈ acc.2 ↔ x ∈ acc.1

theorem orderGenStep_placedInv (d : TreeData) (gen : Int) (acc : List Nat × List Nat)
    (c : TreeCouple) (h : placedInv acc) : placedInv (orderGenStep d gen acc c) := by
  unfold orderGenStep
  split
  · next a b heq =>
      split
      · intro x
        simp only [List.mem_append]
        rw [h x]
      · exact h
  · exact h

theorem orderGen_fold1_placedInv (d : TreeData) (gen : Int) (cs : List TreeCouple)
    (acc : List Nat × List Nat) (h : placedInv acc) :
    placedInv (cs.foldl (orderGenStep d gen) acc) := by
  induction cs generalizing acc with
  | nil => exact h
  | cons c rest ih => exact ih _ (orderGenStep_placedInv d gen acc c h)

theorem orderGen_fold2_mono (ids : List Nat) (acc : List Nat × List Nat) (x : Nat)
    (h : x ∈ acc.1) :
    x ∈ (ids.foldl
      (fun acc id => if id ∈ acc.2 then acc else (acc.1 ++ [id], acc.2 ++ [id])) acc).1 := by
  induction ids generalizing acc with
  | nil => exact h
  | cons i rest ih =>
      simp only [List.foldl_cons]
      apply ih
      split
      · exact h
      · exact List.mem_append.mpr (Or.inl h)

theorem orderGen_fold2_placedInv (ids : List Nat) (acc : List Nat × List Nat)
    (h : placedInv acc) :
    placedInv (ids.foldl
      (fun acc id => if id ∈ acc.2 then acc else (acc.1 ++ [id], acc.2 ++ [id])) acc) := by
  induction ids generalizing acc with
  | nil => exact h
  | cons i rest ih =>
      simp only [List.foldl_cons]
      apply ih
      split
      · exact h
      · intro x
        simp only [List.mem_append]
        rw [h x]

theorem mem_fold2_of_mem (ids : List Nat) (id : Nat) :
    ∀ acc : List Nat × List Nat, placedInv acc → id ∈ ids →
      id ∈ (ids.foldl
        (fun acc id => if id ∈ acc.2 then acc else (acc.1 ++ [id], acc.2 ++ [id])) acc).1 := by
  induction ids with
  | nil =>
      intro acc _ h
      simp at h
  | cons i rest ih =>
      intro acc hS h
      simp only [List.foldl_cons]
      rcases List.mem_cons.mp h with rfl | h2
      · by_cases hi : id ∈ acc.2
        · rw [if_pos hi]
          exact orderGen_fold2_mono rest acc id ((hS id).mp hi)
        · rw [if_neg hi]
          exact orderGen_fold2_mono rest _ id (List.mem_append.mpr (Or.inr (by simp)))
      · refine ih _ ?_ h2
        by_cases hi : i ∈ acc.2
        · rw [if_pos hi]
          exact hS
        · rw [if_neg hi]
          intro x
          simp only [List.mem_append]
          rw [hS x]

theorem mem_orderGen_of_mem (d : TreeData) (gen : Int) (ids : List Nat) (id : Nat)
    (h : id ∈ ids) : id ∈ orderGen d gen ids := by
  unfold orderGen
  exact mem_fold2_of_mem ids id _
    (orderGen_fold1_placedInv d gen d.couples ([], []) (fun x => Iff.rfl)) h

theorem placeRow_alGet_of_not_mem (d : TreeData) (gen : Int) :
    ∀ (row : List Nat) (x : ℚ) (p : List (Nat × Pos)) (id : Nat), id ∉ row →
      alGet (placeRow d gen row x p) id = alGet p id := by
  intro row
  induction row with
  | nil =>
      intro x p id _
      rfl
  | cons i rest ih =>
      intro x p id h
      simp only [placeRow]
      rw [ih _ _ _ fun hh => h (List.mem_cons_of_mem _ hh)]
      exact alGet_alSet_ne _ _ _ _ fun hh => h (List.mem_cons.mpr (Or.inl hh))

theorem placeRow_mem_y (d : TreeData) (gen : Int) :
    ∀ (row : List Nat) (x : ℚ) (p : List (Nat × Pos)) (id : Nat), id ∈ row →
      ∃ q : ℚ, alGet (placeRow d gen row x p) id
        = some ⟨q, (gen : ℚ) * (NODE_HEIGHT + V_GAP)⟩ := by
  intro row
  induction row with
  | nil =>
      intro x p id h
      simp at h
  | cons i rest ih =>
      intro x p id h
      by_cases hr : id ∈ rest
      · simp only [placeRow]
        exact ih _ _ _ hr
      · have hid : id = i := by
          rcases List.mem_cons.mp h with h1 | h1
          · exact h1
          · exact absurd h1 hr
        subst hid
        simp only [placeRow]
        rw [placeRow_alGet_of_not_mem d gen rest _ _ _ hr, alGet_alSet_self]
        exact ⟨x, rfl⟩

theorem placeRow_isSome_mono (d : TreeData) (gen : Int) :
    ∀ (row : List Nat) (x : ℚ) (p : List (Nat × Pos)) (id : Nat),
      (alGet p id).isSome → (alGet (placeRow d gen row x p) id).isSome := by
  intro row
  induction row with
  | nil =>
      intro x p id h
      exact h
  | cons i rest ih =>
      intro x p id h
      simp only [placeRow]
      exact ih _ _ _ (isSome_alGet_alSet _ _ _ _ h)

theorem placeRow_isSome_inv (d : TreeData) (gen : Int) :
    ∀ (row : List Nat) (x : ℚ) (p : List (Nat × Pos)) (id : Nat),
      (alGet (placeRow d gen row x p) id).isSome → id ∈ row ∨ (alGet p id).isSome := by
  intro row
  induction row with
  | nil =>
      intro x p id h
      exact Or.inr h
  | cons i rest ih =>
      intro x p id h
      simp only [placeRow] at h
      rcases ih _ _ _ h with h1 | h1
      · exact Or.inl (List.mem_cons_of_mem _ h1)
      · rcases (isSome_alGet_alSet_iff _ _ _ _).mp h1 with h2 | h2
        · exact Or.inl (List.mem_cons.mpr (Or.inl h2))
        · exact Or.inr h2

theorem placeRow_nodup_keys (d : TreeData) (gen : Int) :
    ∀ (row : List Nat) (x : ℚ) (p : List (Nat × Pos)),
      (alKeys p).Nodup → (alKeys (placeRow d gen row x p)).Nodup := by
  intro row
  induction row with
  | nil =>
      intro x p h
      exact h
  | cons i rest ih =>
      intro x p h
      simp only [placeRow]
      exact ih _ _ (nodup_alKeys_alSet _ _ _ h)

/-- The ordered row the layout walks for one generation. -/
def rowOf (d : TreeData) (gen : Int) : List Nat :=
  (alGet (genOrderMap d) gen).getD []

theorem alGet_genOrderMap (d : TreeData) (gen : Int) :
    alGet (genOrderMap d) gen
      = if gen ∈ generations d
        then some (orderGen d gen ((alGet (genGroups d) gen).getD [])) else none := by
  unfold genOrderMap
  rw [alGet_foldl_alSet (fun g => orderGen d g ((alGet (genGroups d) g).getD []))
    (generations d) [] gen]
  by_cases h : gen ∈ generations d <;> simp [h, alGet]

theorem rowOf_eq (d : TreeData) (gen : Int) (h : gen ∈ generations d) :
    rowOf d gen = orderGen d gen ((alGet (genGroups d) gen).getD []) := by
  unfold rowOf
  rw [alGet_genOrderMap, if_pos h]
  rfl

theorem rowOf_eq_nil (d : TreeData) (gen : Int) (h : gen ∉ generations d) :
    rowOf d gen = [] := by
  unfold rowOf
  rw [alGet_genOrderMap, if_neg h]
  rfl

theorem initialPositions_def (d : TreeData) :
    initialPositions d = (generations d).foldl (fun p g => placeRow d g (rowOf d g) 0 p) [] :=
  rfl

theorem foldl_rows_isSome_mono (d : TreeData) :
    ∀ (gens : List Int) (p : List (Nat × Pos)) (id : Nat), (alGet p id).isSome →
      (alGet (gens.foldl (fun p g => placeRow d g (rowOf d g) 0 p) p) id).isSome := by
  intro gens
  induction gens with
  | nil =>
      intro p id h
      exact h
  | cons g rest ih =>
      intro p id h
      simp only [List.foldl_cons]
      exact ih _ _ (placeRow_isSome_mono d g _ _ _ _ h)

theorem foldl_rows_isSome_of_mem (d : TreeData) :
    ∀ (gens : List Int) (p : List (Nat × Pos)) (id : Nat) (g : Int),
      g ∈ gens → id ∈ rowOf d g →
      (alGet (gens.foldl (fun p g => placeRow d g (rowOf d g) 0 p) p) id).isSome := by
  intro gens
  induction gens with
  | nil =>
      intro p id g hg _
      simp at hg
  | cons g' rest ih =>
      intro p id g hg hrow
      simp only [List.foldl_cons]
      rcases List.mem_cons.mp hg with rfl | h2
      · obtain ⟨q, hq⟩ := placeRow_mem_y d g (rowOf d g) 0 p id hrow
        exact foldl_rows_isSome_mono d rest _ id (by rw [hq]; rfl)
      · exact ih _ _ _ h2 hrow

theorem foldl_rows_isSome_inv (d : TreeData) :
    ∀ (gens : List Int) (p : List (Nat × Pos)) (id : Nat),
      (alGet (gens.foldl (fun p g => placeRow d g (rowOf d g) 0 p) p) id).isSome →
      (alGet p id).isSome ∨ ∃ g ∈ gens, id ∈ rowOf d g := by
  intro gens
  induction gens with
  | nil =>
      intro p id h
      exact Or.inl h
  | cons g rest ih =>
      intro p id h
      simp only [List.foldl_cons] at h
      rcases ih _ _ h with h1 | ⟨g', hg', h1⟩
      · rcases placeRow_isSome_inv d g _ _ _ _ h1 with h2 | h2
        · exact Or.inr ⟨g, List.mem_cons_self _ _, h2⟩
        · exact Or.inl h2
      · exact Or.inr ⟨g', List.mem_cons_of_mem _ hg', h1⟩

theorem foldl_rows_nodup_keys (d : TreeData) :
    ∀ (gens : List Int) (p : List (Nat × Pos)), (alKeys p).Nodup →
      (alKeys (gens.foldl (fun p g => placeRow d g (rowOf d g) 0 p) p)).Nodup := by
  intro gens
  induction gens with
  | nil =>
      intro p h
      exact h
  | cons g rest ih =>
      intro p h
      simp only [List.foldl_cons]
      exact ih _ (placeRow_nodup_keys d g _ _ _ h)

theorem foldl_rows_yAt (d : TreeData) (id : Nat) (Y : ℚ) :
    ∀ (gens : List Int) (p : List (Nat × Pos)),
      (∀ g ∈ gens, id ∈ rowOf d g → (g : ℚ) * (NODE_HEIGHT + V_GAP) = Y) →
      (yAt p id = none ∨ yAt p id = some Y) →
      (yAt (gens.foldl (fun p g => placeRow d g (rowOf d g) 0 p) p) id = none
        ∨ yAt (gens.foldl (fun p g => placeRow d g (rowOf d g) 0 p) p) id = some Y) := by
  intro gens
  induction gens with
  | nil =>
      intro p _ h
      exact h
  | cons g rest ih =>
      intro p hg h
      simp only [List.foldl_cons]
      refine ih _ (fun g' hg' => hg g' (List.mem_cons_of_mem _ hg')) ?_
      by_cases hrow : id ∈ rowOf d g
      · obtain ⟨q, hq⟩ := placeRow_mem_y d g (rowOf d g) 0 p id hrow
        refine Or.inr ?_
        rw [yAt, hq]
        simp only [Option.map]
        rw [hg g (List.mem_cons_self _ _) hrow]
      · rw [yAt, placeRow_alGet_of_not_mem d g (rowOf d g) 0 p id hrow]
        exact h

theorem initialPositions_isSome (d : TreeData) {n : TreeNode} (h : n ∈ d.nodes) :
    (alGet (initialPositions d) n.id).isSome := by
  have hmem : n.id ∈ (alGet (genGroups d) n.generation).getD [] :=
    (genGroups_mem d n.generation n.id).mpr ⟨n, h, rfl, rfl⟩
  have hgen : n.generation ∈ generations d := by
    have hsome : (alGet (genGroups d) n.generation).isSome := by
      rcases halg : alGet (genGroups d) n.generation with _ | v
      · rw [halg] at hmem
        simp at hmem
      · rfl
    unfold generations
    rw [mem_sortAsc]
    exact (isSome_alGet_iff_mem_keys _ _).mp hsome
  have hrow : n.id ∈ rowOf d n.generation := by
    rw [rowOf_eq d _ hgen]
    exact mem_orderGen_of_mem d _ _ _ hmem
  rw [initialPositions_def]
  exact foldl_rows_isSome_of_mem d (generations d) [] n.id n.generation hgen hrow

theorem initialPositions_ids (d : TreeData) (id : Nat)
    (h : (alGet (initialPositions d) id).isSome) : ∃ n ∈ d.nodes, n.id = id := by
  rw [initialPositions_def] at h
  rcases foldl_rows_isSome_inv d (generations d) [] id h with h1 | ⟨g, hg, h1⟩
  · simp [alGet] at h1
  · by_cases hgen : g ∈ generations d
    · rw [rowOf_eq d g hgen] at h1
      rcases orderGen_sub d g _ id h1 with h2 | ⟨n, hn, _⟩
      · rcases (genGroups_mem d g id).mp h2 with ⟨n, hn, hid, _⟩
        exact ⟨n, hn, hid⟩
      · obtain ⟨hmem, hid⟩ := nodeMap_some hn
        exact ⟨n, hmem, hid⟩
    · rw [rowOf_eq_nil d g hgen] at h1
      simp at h1

theorem initialPositions_nodup_keys (d : TreeData) :
    (alKeys (initialPositions d)).Nodup := by
  rw [initialPositions_def]
  exact foldl_rows_nodup_keys d (generations d) [] (by simp [alKeys])

theorem initialPositions_y (d : TreeData) (hnd : (d.nodes.map TreeNode.id).Nodup)
    {n : TreeNode} (h : n ∈ d.nodes) :
    yAt (initialPositions d) n.id = some ((n.generation : ℚ) * (NODE_HEIGHT + V_GAP)) := by
  have huniq : ∀ g, n.id ∈ rowOf d g → g = n.generation := by
    intro g hg
    by_cases hgen : g ∈ generations d
    · rw [rowOf_eq d g hgen] at hg
      rcases orderGen_sub d g _ n.id hg with h2 | ⟨n', hn', hgen'⟩
      · rcases (genGroups_mem d g n.id).mp h2 with ⟨n', hn', hid, hgg⟩
        have heq : n' = n := List.inj_on_of_nodup_map hnd hn' h hid
        rw [← hgg, heq]
      · obtain ⟨hmem, hid⟩ := nodeMap_some hn'
        have heq : n' = n := List.inj_on_of_nodup_map hnd hmem h hid
        rw [← hgen', heq]
    · rw [rowOf_eq_nil d g hgen] at hg
      simp at hg
  have hisSome := initialPositions_isSome d h
  have hne : yAt (initialPositions d) n.id ≠ none := by
    unfold yAt
    obtain ⟨pos, hpos⟩ := Option.isSome_iff_exists.mp hisSome
    rw [hpos]
    simp
  have hy := foldl_rows_yAt d n.id ((n.generation : ℚ) * (NODE_HEIGHT + V_GAP))
    (generations d) []
    (fun g _ hrow => by rw [huniq g hrow])
    (Or.inl (by simp [yAt, alGet]))
  rw [← initialPositions_def] at hy
  rcases hy with hy | hy
  · exact absurd hy hne
  · exact hy

/-! ## Invariants of the centering passes -/

theorem posGetD_eq {p : List (Nat × Pos)} {id : Nat} {pos : Pos}
    (h : alGet p id = some pos) : posGetD p id = pos := by
  simp [posGetD, h]

theorem isSome_yAt (p : List (Nat × Pos)) (id : Nat) :
    (yAt p id).isSome = (alGet p id).isSome := by
  unfold yAt
  cases alGet p id <;> rfl

theorem mem_validPartners {p : List (Nat × Pos)} {c : TreeCouple} {x : Nat}
    (h : x ∈ validPartners p c) : (alGet p x).isSome ∧ x ∈ c.partner_ids := by
  unfold validPartners at h
  have h2 := List.mem_filter.mp h
  exact ⟨by simpa [hasPos] using h2.2, h2.1⟩

theorem mem_filter_hasPos {p : List (Nat × Pos)} {kids : List Nat} {x : Nat}
    (h : x ∈ kids.filter (hasPos p)) : (alGet p x).isSome ∧ x ∈ kids := by
  have h2 := List.mem_filter.mp h
  exact ⟨by simpa [hasPos] using h2.2, h2.1⟩

theorem yAt_set_keep (p : List (Nat × Pos)) (a : Nat) (x' : ℚ)
    (ha : (alGet p a).isSome) (id : Nat) :
    yAt (alSet p a ⟨x', (posGetD p a).y⟩) id = yAt p id := by
  unfold yAt
  rw [alGet_alSet]
  by_cases hid : id = a
  · subst hid
    obtain ⟨pa, hpa⟩ := Option.isSome_iff_exists.mp ha
    rw [if_pos rfl, hpa]
    simp [posGetD, hpa]
  · rw [if_neg hid]

theorem stepA_yAt (d : TreeData) (p : List (Nat × Pos)) (c : TreeCouple) (id : Nat) :
    yAt (stepA d p c) id = yAt p id := by
  simp only [stepA]
  split
  · rfl
  · split
    · rfl
    · split
      · rfl
      · split
        · rfl
        · split
          · next a b heq =>
              have ha : (alGet p a).isSome :=
                (mem_validPartners (by rw [heq]; simp)).1
              have hb : (alGet p b).isSome :=
                (@mem_validPartners p c b (by rw [heq]; simp)).1
              have hb1 : (alGet (alSet p a
                  ⟨listMin (childXsOf p (getMergedChildren d c)) / 2 +
                    listMax (childXsOf p (getMergedChildren d c)) / 2 + NODE_WIDTH / 2 -
                    (NODE_WIDTH * 2 + COUPLE_GAP) / 2, (posGetD p a).y⟩) b).isSome := by
                exact isSome_alGet_alSet _ _ _ _ hb
              rw [yAt_set_keep _ b _ (isSome_alGet_alSet _ _ _ _ hb) id,
                yAt_set_keep p a _ ha id]
          · next a heq =>
              have ha : (alGet p a).isSome :=
                (mem_validPartners (by rw [heq]; simp)).1
              rw [yAt_set_keep p a _ ha id]
          · rfl

theorem fold_shift_yAt (kidIds : List Nat) (shift : ℚ) :
    ∀ (p0 p : List (Nat × Pos)), (∀ j, yAt p j = yAt p0 j) →
      (∀ kid ∈ kidIds, (alGet p0 kid).isSome) → ∀ id,
      yAt (kidIds.foldl
        (fun acc kid => alSet acc kid ⟨(posGetD acc kid).x + shift, (posGetD acc kid).y⟩) p) id
        = yAt p0 id := by
  induction kidIds with
  | nil =>
      intro p0 p hinv _ id
      exact hinv id
  | cons kid rest ih =>
      intro p0 p hinv hk id
      simp only [List.foldl_cons]
      have hkp : (alGet p kid).isSome := by
        have h1 : (yAt p kid).isSome = (yAt p0 kid).isSome := by rw [hinv kid]
        rw [isSome_yAt, isSome_yAt] at h1
        rw [h1]
        exact hk kid (List.mem_cons_self _ _)
      refine ih p0 _ (fun j => ?_) (fun k hk2 => hk k (List.mem_cons_of_mem _ hk2)) id
      rw [yAt_set_keep p kid _ hkp j]
      exact hinv j

theorem stepB_yAt (d : TreeData) (p : List (Nat × Pos)) (c : TreeCouple) (id : Nat) :
    yAt (stepB d p c) id = yAt p id := by
  simp only [stepB]
  split
  · rfl
  · split
    · rfl
    · split
      · rfl
      · split
        · rfl
        · exact fold_shift_yAt _ _ p p (fun _ => rfl)
            (fun kid hk => (mem_filter_hasPos hk).1) id

theorem foldl_stepA_yAt (d : TreeData) (cs : List TreeCouple) :
    ∀ (p : List (Nat × Pos)) (id : Nat), yAt (cs.foldl (stepA d) p) id = yAt p id := by
  induction cs with
  | nil =>
      intro p id
      rfl
  | cons c rest ih =>
      intro p id
      simp only [List.foldl_cons]
      rw [ih _ id, stepA_yAt]

theorem foldl_stepB_yAt (d : TreeData) (cs : List TreeCouple) :
    ∀ (p : List (Nat × Pos)) (id : Nat), yAt (cs.foldl (stepB d) p) id = yAt p id := by
  induction cs with
  | nil =>
      intro p id
      rfl
  | cons c rest ih =>
      intro p id
      simp only [List.foldl_cons]
      rw [ih _ id, stepB_yAt]

theorem centerPass_yAt (d : TreeData) (p : List (Nat × Pos)) (id : Nat) :
    yAt (centerPass d p) id = yAt p id := by
  unfold centerPass
  rw [foldl_stepB_yAt, foldl_stepA_yAt]

theorem centered_yAt (d : TreeData) (p : List (Nat × Pos)) (id : Nat) :
    yAt (centered d p) id = yAt p id := by
  unfold centered
  rw [centerPass_yAt, centerPass_yAt, centerPass_yAt]

theorem isSome_centered (d : TreeData) (p : List (Nat × Pos)) (id : Nat) :
    (alGet (centered d p) id).isSome = (alGet p id).isSome := by
  rw [← isSome_yAt, centered_yAt, isSome_yAt]

theorem stepA_nodup_keys (d : TreeData) (p : List (Nat × Pos)) (c : TreeCouple)
    (h : (alKeys p).Nodup) : (alKeys (stepA d p c)).Nodup := by
  simp only [stepA]
  split
  · exact h
  · split
    · exact h
    · split
      · exact h
      · split
        · exact h
        · split
          · exact nodup_alKeys_alSet _ _ _ (nodup_alKeys_alSet _ _ _ h)
          · exact nodup_alKeys_alSet _ _ _ h
          · exact h

theorem fold_shift_nodup_keys (kidIds : List Nat) (shift : ℚ) :
    ∀ p : List (Nat × Pos), (alKeys p).Nodup →
      (alKeys (kidIds.foldl
        (fun acc kid => alSet acc kid ⟨(posGetD acc kid).x + shift, (posGetD acc kid).y⟩)
        p)).Nodup := by
  induction kidIds with
  | nil =>
      intro p h
      exact h
  | cons kid rest ih =>
      intro p h
      simp only [List.foldl_cons]
      exact ih _ (nodup_alKeys_alSet _ _ _ h)

theorem stepB_nodup_keys (d : TreeData) (p : List (Nat × Pos)) (c : TreeCouple)
    (h : (alKeys p).Nodup) : (alKeys (stepB d p c)).Nodup := by
  simp only [stepB]
  split
  · exact h
  · split
    · exact h
    · split
      · exact h
      · split
        · exact h
        · exact fold_shift_nodup_keys _ _ p h

theorem centered_nodup_keys (d : TreeData) (p : List (Nat × Pos))
    (h : (alKeys p).Nodup) : (alKeys (centered d p)).Nodup := by
  have hA : ∀ (cs : List TreeCouple) (q : List (Nat × Pos)), (alKeys q).Nodup →
      (alKeys (cs.foldl (stepA d) q)).Nodup := by
    intro cs
    induction cs with
    | nil => intro q hq; exact hq
    | cons c rest ih =>
        intro q hq
        simp only [List.foldl_cons]
        exact ih _ (stepA_nodup_keys d q c hq)
  have hB : ∀ (cs : List TreeCouple) (q : List (Nat × Pos)), (alKeys q).Nodup →
      (alKeys (cs.foldl (stepB d) q)).Nodup := by
    intro cs
    induction cs with
    | nil => intro q hq; exact hq
    | cons c rest ih =>
        intro q hq
        simp only [List.foldl_cons]
        exact ih _ (stepB_nodup_keys d q c hq)
  unfold centered centerPass
  exact hB _ _ (hA _ _ (hB _ _ (hA _ _ (hB _ _ (hA _ _ h)))))

/-! ## Normalization lemmas -/

theorem alGet_normalize (p : List (Nat × Pos)) (id : Nat) :
    alGet (normalize p) id = (alGet p id).map fun pos =>
      (⟨pos.x - listMin (p.map fun e => e.2.x) + 40,
        pos.y - listMin (p.map fun e => e.2.y) + 40⟩ : Pos) := by
  simp only [normalize]
  exact alGet_map_entry p
    (fun pos => (⟨pos.x - listMin (p.map fun e => e.2.x) + 40,
      pos.y - listMin (p.map fun e => e.2.y) + 40⟩ : Pos)) id

theorem alKeys_normalize (p : List (Nat × Pos)) : alKeys (normalize p) = alKeys p := by
  simp only [normalize]
  exact alKeys_map_entry p
    (fun pos => (⟨pos.x - listMin (p.map fun e => e.2.x) + 40,
      pos.y - listMin (p.map fun e => e.2.y) + 40⟩ : Pos))

theorem normalize_xs (p : List (Nat × Pos)) :
    (normalize p).map (fun e => e.2.x)
      = (p.map fun e => e.2.x).map
          (fun x => x - listMin (p.map fun e => e.2.x) + 40) := by
  simp only [normalize]
  rw [List.map_map, List.map_map]
  rfl

theorem normalize_ys (p : List (Nat × Pos)) :
    (normalize p).map (fun e => e.2.y)
      = (p.map fun e => e.2.y).map
          (fun y => y - listMin (p.map fun e => e.2.y) + 40) := by
  simp only [normalize]
  rw [List.map_map, List.map_map]
  rfl

theorem normalize_min_x (p : List (Nat × Pos)) (h : p ≠ []) :
    listMin ((normalize p).map fun e => e.2.x) = 40 := by
  rw [normalize_xs, listMin_map_sub_add (by simpa using h)]
  ring

theorem normalize_min_y (p : List (Nat × Pos)) (h : p ≠ []) :
    listMin ((normalize p).map fun e => e.2.y) = 40 := by
  rw [normalize_ys, listMin_map_sub_add (by simpa using h)]
  ring

theorem normalize_x_ge (p : List (Nat × Pos)) (id : Nat) (pos : Pos)
    (h : alGet (normalize p) id = some pos) : 40 ≤ pos.x := by
  rw [alGet_normalize] at h
  rcases h0 : alGet p id with _ | pos0
  · rw [h0] at h
    simp at h
  · rw [h0] at h
    simp only [Option.map] at h
    have hmem : pos0.x ∈ p.map fun e => e.2.x := by
      exact List.mem_map.mpr ⟨(id, pos0), mem_of_alGet h0, rfl⟩
    have hmin : listMin (p.map fun e => e.2.x) ≤ pos0.x := listMin_le hmem
    have hx : pos.x = pos0.x - listMin (p.map fun e => e.2.x) + 40 := by
      injection h with h
      rw [← h]
    rw [hx]
    linarith

theorem normalize_y_ge (p : List (Nat × Pos)) (id : Nat) (pos : Pos)
    (h : alGet (normalize p) id = some pos) : 40 ≤ pos.y := by
  rw [alGet_normalize] at h
  rcases h0 : alGet p id with _ | pos0
  · rw [h0] at h
    simp at h
  · rw [h0] at h
    simp only [Option.map] at h
    have hmem : pos0.y ∈ p.map fun e => e.2.y := by
      exact List.mem_map.mpr ⟨(id, pos0), mem_of_alGet h0, rfl⟩
    have hmin : listMin (p.map fun e => e.2.y) ≤ pos0.y := listMin_le hmem
    have hy : pos.y = pos0.y - listMin (p.map fun e => e.2.y) + 40 := by
      injection h with h
      rw [← h]
    rw [hy]
    linarith

/-! ## Facts about the final position table -/

theorem finalPositions_isSome (d : TreeData) {n : TreeNode} (h : n ∈ d.nodes) :
    (alGet (finalPositions d) n.id).isSome := by
  unfold finalPositions
  rw [alGet_normalize]
  have h1 : (alGet (centered d (initialPositions d)) n.id).isSome := by
    rw [isSome_centered]
    exact initialPositions_isSome d h
  obtain ⟨pos, hpos⟩ := Option.isSome_iff_exists.mp h1
  rw [hpos]
  rfl

theorem finalPositions_ids (d : TreeData) (id : Nat)
    (h : (alGet (finalPositions d) id).isSome) : ∃ n ∈ d.nodes, n.id = id := by
  unfold finalPositions at h
  rw [alGet_normalize] at h
  have h1 : (alGet (centered d (initialPositions d)) id).isSome := by
    rcases h0 : alGet (centered d (initialPositions d)) id with _ | pos
    · rw [h0] at h
      simp at h
    · rfl
  rw [isSome_centered] at h1
  exact initialPositions_ids d id h1

theorem finalPositions_nodup_keys (d : TreeData) :
    (alKeys (finalPositions d)).Nodup := by
  unfold finalPositions
  rw [alKeys_normalize]
  exact centered_nodup_keys d _ (initialPositions_nodup_keys d)

/-! ## The checked pipeline

Every map access the source performs with a non-null assertion
(`positions.get(x)!`, `genGroups.get(gen)!`, `genOrder.get(gen)!`) — the
only operations of `computeTreeLayout` that can throw — becomes an `Option`
bind here; everything else is shared with the total model. -/

def genOrderMapC (d : TreeData) : Option (List (Int × List Nat)) :=
  (generations d).foldlM
    (fun m gen => do
      let ids ← alGet (genGroups d) gen
      pure (alSet m gen (orderGen d gen ids))) []

def initialPositionsC (d : TreeData) : Option (List (Nat × Pos)) := do
  let gom ← genOrderMapC d
  (generations d).foldlM
    (fun p gen => do
      let ordered ← alGet gom gen
      pure (placeRow d gen ordered 0 p)) []

def stepAC (d : TreeData) (p : List (Nat × Pos)) (c : TreeCouple) :
    Option (List (Nat × Pos)) :=
  let kids := getMergedChildren d c
  if kids = [] then some p
  else
    let vps := validPartners p c
    if vps = [] then some p
    else if vps.length = 1 ∧ coveredBy d kids (vps.headD 0) = true then some p
    else
      let childXs := childXsOf p kids
      if childXs = [] then some p
      else
        let childCenter := (listMin childXs + listMax childXs + NODE_WIDTH) / 2
        match vps with
        | [a, b] => do
            let pa ← alGet p a
            let coupleStartX := childCenter - (NODE_WIDTH * 2 + COUPLE_GAP) / 2
            let p1 := alSet p a ⟨coupleStartX, pa.y⟩
            let pb ← alGet p1 b
            pure (alSet p1 b ⟨coupleStartX + NODE_WIDTH + COUPLE_GAP, pb.y⟩)
        | [a] => do
            let pa ← alGet p a
            pure (alSet p a ⟨childCenter - NODE_WIDTH / 2, pa.y⟩)
        | _ => some p

def stepBC (d : TreeData) (p : List (Nat × Pos)) (c : TreeCouple) :
    Option (List (Nat × Pos)) :=
  let kids := getMergedChildren d c
  if kids = [] then some p
  else
    let vps := validPartners p c
    if vps = [] then some p
    else if vps.length = 1 ∧ coveredBy d kids (vps.headD 0) = true then some p
    else do
      let parentXs ← vps.mapM fun id => (alGet p id).map Pos.x
      let parentCenter := (listMin parentXs + listMax parentXs + NODE_WIDTH) / 2
      let kidIds := kids.filter (hasPos p)
      if kidIds = [] then pure p
      else do
        let kidXs ← kidIds.mapM fun id => (alGet p id).map Pos.x
        let kidCenter := (listMin kidXs + listMax kidXs + NODE_WIDTH) / 2
        let shift := parentCenter - kidCenter
        kidIds.foldlM
          (fun acc kid => do
            let pos ← alGet acc kid
            pure (alSet acc kid ⟨pos.x + shift, pos.y⟩)) p

def junctionForC (d : TreeData) (p : List (Nat × Pos)) (c : TreeCouple) :
    Option (Option RFNode) :=
  let kids := getMergedChildren d c
  if kids = [] then some none
  else
    let vps := validPartners p c
    if vps = [] then some none
    else if vps.length = 1 ∧ coveredBy d kids (vps.headD 0) = true then some none
    else do
      let partnerXs ← vps.mapM fun id => (alGet p id).map Pos.x
      let pY ← (alGet p (vps.headD 0)).map Pos.y
      let midX := (listMin partnerXs + listMax partnerXs + NODE_WIDTH) / 2
      pure (some { id := "junction-" ++ toString c.family_id, nodeType := "default",
                   position := ⟨midX - JUNCTION_SIZE / 2, pY + NODE_HEIGHT - JUNCTION_DROP⟩,
                   data := RFNodeData.junction, draggable := false })

def centerPassC (d : TreeData) (p : List (Nat × Pos)) : Option (List (Nat × Pos)) := do
  let p1 ← d.couples.foldlM (stepAC d) p
  d.couples.foldlM (stepBC d) p1

def computeTreeLayoutChecked (d : TreeData) : Option LayoutResult := do
  let p0 ← initialPositionsC d
  let p1 ← centerPassC d p0
  let p2 ← centerPassC d p1
  let p3 ← centerPassC d p2
  let p := normalize p3
  let jnodes ← d.couples.foldlM
    (fun acc c => do
      let j ← junctionForC d p c
      pure (j.elim acc fun node => acc ++ [node])) ([] : List RFNode)
  let jids := junctionIds d p
  pure { nodes := buildPersonNodes d p ++ jnodes,
         edges := coupleEdges d p ++ parentJunctionEdges d p jids ++ buildChildEdges d p jids }

/-! ## Agreement of the checked pipeline with the total model -/

theorem foldlM_eq_foldl_of {σ τ : Type} (f : σ → τ → Option σ) (g : σ → τ → σ) :
    ∀ l : List τ, (∀ s, ∀ t ∈ l, f s t = some (g s t)) →
      ∀ s, l.foldlM f s = some (l.foldl g s) := by
  intro l
  induction l with
  | nil =>
      intro _ s
      rfl
  | cons t rest ih =>
      intro hf s
      rw [List.foldlM_cons, hf s t (List.mem_cons_self _ _)]
      simp only [Option.bind_eq_bind, Option.some_bind]
      exact ih (fun s' t' ht' => hf s' t' (List.mem_cons_of_mem _ ht')) (g s t)

theorem mapM_x_eq (p : List (Nat × Pos)) :
    ∀ l : List Nat, (∀ a ∈ l, (alGet p a).isSome) →
      l.mapM (fun id => (alGet p id).map Pos.x)
        = some (l.map fun id => (posGetD p id).x) := by
  intro l
  induction l with
  | nil =>
      intro _
      rfl
  | cons a rest ih =>
      intro h
      rw [List.mapM_cons]
      obtain ⟨pa, hpa⟩ := Option.isSome_iff_exists.mp (h a (List.mem_cons_self _ _))
      rw [hpa]
      simp only [Option.map_some', Option.bind_eq_bind, Option.some_bind]
      rw [ih fun a' ha' => h a' (List.mem_cons_of_mem _ ha')]
      simp only [Option.some_bind]
      rw [List.map_cons, posGetD_eq hpa]
      rfl

theorem bind_set_keep (p : List (Nat × Pos)) (a b : Nat) (v : Pos) (x2 : ℚ)
    (hb : (alGet p b).isSome) :
    ((alGet (alSet p a v) b).bind fun pb =>
        (pure (alSet (alSet p a v) b ⟨x2, pb.y⟩) : Option (List (Nat × Pos))))
      = some (alSet (alSet p a v) b ⟨x2, (posGetD (alSet p a v) b).y⟩) := by
  obtain ⟨pb, hpb⟩ := Option.isSome_iff_exists.mp (isSome_alGet_alSet p a b v hb)
  rw [hpb, posGetD_eq hpb, Option.some_bind]
  rfl

theorem stepAC_eq (d : TreeData) (p : List (Nat × Pos)) (c : TreeCouple) :
    stepAC d p c = some (stepA d p c) := by
  simp only [stepAC, stepA]
  split
  · rfl
  · split
    · rfl
    · split
      · rfl
      · split
        · rfl
        · split
          · next a b heq =>
              have ha : (alGet p a).isSome :=
                (mem_validPartners (by rw [heq]; simp)).1
              have hb : (alGet p b).isSome :=
                (@mem_validPartners p c b (by rw [heq]; simp)).1
              obtain ⟨pa, hpa⟩ := Option.isSome_iff_exists.mp ha
              rw [posGetD_eq hpa, hpa]
              simp only [Option.bind_eq_bind, Option.some_bind]
              exact bind_set_keep p a b _ _ hb
          · next a heq =>
              have ha : (alGet p a).isSome :=
                (mem_validPartners (by rw [heq]; simp)).1
              obtain ⟨pa, hpa⟩ := Option.isSome_iff_exists.mp ha
              rw [posGetD_eq hpa, hpa]
              simp only [Option.bind_eq_bind, Option.some_bind]
              rfl
          · rfl

theorem foldlM_shift_eq (shift : ℚ) :
    ∀ (kidIds : List Nat) (p : List (Nat × Pos)), (∀ k ∈ kidIds, (alGet p k).isSome) →
      kidIds.foldlM (fun acc kid => do
          let pos ← alGet acc kid
          pure (alSet acc kid ⟨pos.x + shift, pos.y⟩)) p
        = some (kidIds.foldl
            (fun acc kid =>
              alSet acc kid ⟨(posGetD acc kid).x + shift, (posGetD acc kid).y⟩) p) := by
  intro kidIds
  induction kidIds with
  | nil =>
      intro p _
      rfl
  | cons kid rest ih =>
      intro p h
      rw [List.foldlM_cons, List.foldl_cons]
      obtain ⟨pos, hpos⟩ := Option.isSome_iff_exists.mp (h kid (List.mem_cons_self _ _))
      rw [hpos, posGetD_eq hpos]
      simp only [Option.bind_eq_bind, Option.some_bind, Option.pure_def]
      exact ih _ fun k hk =>
        isSome_alGet_alSet _ _ _ _ (h k (List.mem_cons_of_mem _ hk))

theorem stepBC_eq (d : TreeData) (p : List (Nat × Pos)) (c : TreeCouple) :
    stepBC d p c = some (stepB d p c) := by
  simp only [stepBC, stepB]
  split
  · rfl
  · split
    · rfl
    · split
      · rfl
      · rw [mapM_x_eq p (validPartners p c) fun a ha => (mem_validPartners ha).1]
        simp only [Option.bind_eq_bind, Option.some_bind]
        split
        · rfl
        · rw [mapM_x_eq p ((getMergedChildren d c).filter (hasPos p))
            fun a ha => (mem_filter_hasPos ha).1]
          simp only [Option.some_bind]
          exact foldlM_shift_eq _ _ p fun k hk => (mem_filter_hasPos hk).1

theorem junctionForC_eq (d : TreeData) (p : List (Nat × Pos)) (c : TreeCouple) :
    junctionForC d p c = some (junctionFor d p c) := by
  simp only [junctionForC, junctionFor]
  split
  · rfl
  · split
    · rfl
    · split
      · rfl
      · next hvps _ =>
          rw [mapM_x_eq p (validPartners p c) fun a ha => (mem_validPartners ha).1]
          simp only [Option.bind_eq_bind, Option.some_bind]
          have hhead : (validPartners p c).headD 0 ∈ validPartners p c := by
            rcases hv : validPartners p c with _ | ⟨a, rest⟩
            · exact absurd hv hvps
            · simp
          obtain ⟨pa, hpa⟩ :=
            Option.isSome_iff_exists.mp (mem_validPartners hhead).1
          rw [hpa]
          simp only [Option.map_some', Option.bind_eq_bind, Option.some_bind]
          rw [posGetD_eq hpa]
          rfl

theorem genOrderMapC_eq (d : TreeData) : genOrderMapC d = some (genOrderMap d) := by
  unfold genOrderMapC genOrderMap
  refine foldlM_eq_foldl_of _ _ (generations d) ?_ []
  intro s g hg
  have hsome : (alGet (genGroups d) g).isSome := by
    rw [isSome_alGet_iff_mem_keys]
    unfold generations at hg
    rw [mem_sortAsc] at hg
    exact hg
  obtain ⟨ids, hids⟩ := Option.isSome_iff_exists.mp hsome
  rw [hids]
  simp only [Option.bind_eq_bind, Option.some_bind, Option.getD_some]
  rfl

theorem initialPositionsC_eq (d : TreeData) :
    initialPositionsC d = some (initialPositions d) := by
  unfold initialPositionsC
  rw [genOrderMapC_eq]
  simp only [Option.bind_eq_bind, Option.some_bind]
  rw [initialPositions_def]
  refine foldlM_eq_foldl_of _ _ (generations d) ?_ []
  intro s g hg
  have hsome : (alGet (genOrderMap d) g).isSome := by
    rw [alGet_genOrderMap, if_pos hg]
    rfl
  obtain ⟨row, hrow⟩ := Option.isSome_iff_exists.mp hsome
  rw [hrow]
  simp only [Option.bind_eq_bind, Option.some_bind]
  have hr : rowOf d g = row := by
    unfold rowOf
    rw [hrow]
    rfl
  rw [hr]
  rfl

theorem foldlM_stepAC_eq (d : TreeData) (cs : List TreeCouple) (p : List (Nat × Pos)) :
    cs.foldlM (stepAC d) p = some (cs.foldl (stepA d) p) :=
  foldlM_eq_foldl_of _ _ cs (fun s t _ => stepAC_eq d s t) p

theorem foldlM_stepBC_eq (d : TreeData) (cs : List TreeCouple) (p : List (Nat × Pos)) :
    cs.foldlM (stepBC d) p = some (cs.foldl (stepB d) p) :=
  foldlM_eq_foldl_of _ _ cs (fun s t _ => stepBC_eq d s t) p

theorem centerPassC_eq (d : TreeData) (p : List (Nat × Pos)) :
    centerPassC d p = some (centerPass d p) := by
  unfold centerPassC centerPass
  rw [foldlM_stepAC_eq]
  simp only [Option.bind_eq_bind, Option.some_bind]
  exact foldlM_stepBC_eq d d.couples _

theorem jnodes_fold_eq (d : TreeData) (p : List (Nat × Pos)) :
    ∀ (cs : List TreeCouple) (acc : List RFNode),
      cs.foldlM (fun acc c =>
          (junctionForC d p c).bind fun j => pure (j.elim acc fun node => acc ++ [node])) acc
        = some (acc ++ cs.filterMap (junctionFor d p)) := by
  intro cs
  induction cs with
  | nil =>
      intro acc
      simp
  | cons c rest ih =>
      intro acc
      rw [List.foldlM_cons, junctionForC_eq]
      rcases hj : junctionFor d p c with _ | node
      · show List.foldlM _ acc rest = _
        rw [ih acc, List.filterMap_cons, hj]
      · show List.foldlM _ (acc ++ [node]) rest = _
        rw [ih (acc ++ [node]), List.filterMap_cons, hj]
        simp [List.append_assoc]

theorem computeTreeLayoutChecked_eq (d : TreeData) :
    computeTreeLayoutChecked d = some (computeTreeLayout d) := by
  unfold computeTreeLayoutChecked
  rw [initialPositionsC_eq]
  simp only [Option.bind_eq_bind, Option.some_bind]
  rw [centerPassC_eq]
  simp only [Option.some_bind]
  rw [centerPassC_eq]
  simp only [Option.some_bind]
  rw [centerPassC_eq]
  simp only [Option.some_bind]
  rw [jnodes_fold_eq]
  simp only [Option.some_bind]
  rfl

/-! ## Support lemmas for the output structure -/

/-- The person node the layout emits for an input node. -/
def personRF (d : TreeData) (n : TreeNode) : RFNode :=
  { id := toString n.id, nodeType := "personNode",
    position := posGetD (finalPositions d) n.id,
    data := RFNodeData.person n (decide (n.id = d.focus_id)), draggable := false }

theorem filterMap_personNodes (d : TreeData) (p : List (Nat × Pos)) :
    ∀ ns : List TreeNode, (∀ n ∈ ns, (alGet p n.id).isSome) →
      (ns.filterMap fun n => (alGet p n.id).map fun pos =>
        ({ id := toString n.id, nodeType := "personNode", position := pos,
           data := RFNodeData.person n (decide (n.id = d.focus_id)),
           draggable := false } : RFNode))
        = ns.map fun n =>
            { id := toString n.id, nodeType := "personNode", position := posGetD p n.id,
              data := RFNodeData.person n (decide (n.id = d.focus_id)),
              draggable := false } := by
  intro ns
  induction ns with
  | nil =>
      intro _
      rfl
  | cons n rest ih =>
      intro h
      obtain ⟨pos, hpos⟩ := Option.isSome_iff_exists.mp (h n (List.mem_cons_self _ _))
      rw [List.map_cons, List.filterMap_cons, hpos]
      simp only [Option.map_some']
      rw [ih fun n' hn' => h n' (List.mem_cons_of_mem _ hn'), posGetD_eq hpos]

theorem buildPersonNodes_eq_map (d : TreeData) :
    buildPersonNodes d (finalPositions d) = d.nodes.map (personRF d) := by
  unfold buildPersonNodes personRF
  exact filterMap_personNodes d (finalPositions d) d.nodes
    fun n hn => finalPositions_isSome d hn

theorem computeTreeLayout_nodes (d : TreeData) :
    (computeTreeLayout d).nodes
      = d.nodes.map (personRF d) ++ junctionNodes d (finalPositions d) := by
  show buildPersonNodes d (finalPositions d) ++ junctionNodes d (finalPositions d) = _
  rw [buildPersonNodes_eq_map]

theorem computeTreeLayout_edges (d : TreeData) :
    (computeTreeLayout d).edges
      = coupleEdges d (finalPositions d)
        ++ parentJunctionEdges d (finalPositions d)
            (junctionIds d (finalPositions d))
        ++ buildChildEdges d (finalPositions d)
            (junctionIds d (finalPositions d)) := rfl

theorem junctionFor_shape (d : TreeData) (p : List (Nat × Pos)) (c : TreeCouple)
    {j : RFNode} (h : junctionFor d p c = some j) :
    j.nodeType = "default" ∧ j.data = RFNodeData.junction ∧
      j.id = "junction-" ++ toString c.family_id := by
  simp only [junctionFor] at h
  split at h
  · cases h
  · split at h
    · cases h
    · split at h
      · cases h
      · injection h with h
        subst h
        exact ⟨rfl, rfl, rfl⟩

theorem junctionFor_eq_some (d : TreeData) (p : List (Nat × Pos)) (c : TreeCouple)
    (h1 : getMergedChildren d c ≠ []) (h2 : validPartners p c ≠ [])
    (h3 : ¬((validPartners p c).length = 1 ∧
      coveredBy d (getMergedChildren d c) ((validPartners p c).headD 0) = true)) :
    junctionFor d p c = some
      { id := "junction-" ++ toString c.family_id, nodeType := "default",
        position :=
          ⟨(listMin ((validPartners p c).map fun id => (posGetD p id).x)
              + listMax ((validPartners p c).map fun id => (posGetD p id).x)
              + NODE_WIDTH) / 2 - JUNCTION_SIZE / 2,
            (posGetD p ((validPartners p c).headD 0)).y + NODE_HEIGHT - JUNCTION_DROP⟩,
        data := RFNodeData.junction, draggable := false } := by
  simp only [junctionFor]
  rw [if_neg h1, if_neg h2, if_neg h3]

theorem childEdgeSource_of_junction (d : TreeData) (jids : List (Nat × String))
    (e : TreeEdge) (jid : String) (h : alGet jids e.family_id = some jid) :
    childEdgeSource d jids e = jid := by
  unfold childEdgeSource
  rw [h]

theorem buildChildEdges_sub (d : TreeData) (p : List (Nat × Pos))
    (jids : List (Nat × String)) :
    ∀ oe ∈ buildChildEdges d p jids, ∃ e ∈ d.edges,
      hasPos p e.parent_id = true ∧ hasPos p e.child_id = true ∧
      oe.id = childEdgeId e ∧ oe.target = toString e.child_id ∧
      oe.source = childEdgeSource d jids e := by
  have main : ∀ (es : List TreeEdge), (∀ e ∈ es, e ∈ d.edges) →
      ∀ acc : List RFEdge × List (Nat × Nat),
      (∀ oe ∈ acc.1, ∃ e ∈ d.edges,
        hasPos p e.parent_id = true ∧ hasPos p e.child_id = true ∧
        oe.id = childEdgeId e ∧ oe.target = toString e.child_id ∧
        oe.source = childEdgeSource d jids e) →
      ∀ oe ∈ (es.foldl
        (fun (acc : List RFEdge × List (Nat × Nat)) e =>
          if hasPos p e.parent_id = true ∧ hasPos p e.child_id = true then
            if (e.family_id, e.child_id) ∈ acc.2 then acc
            else (acc.1 ++ [{ id := childEdgeId e, source := childEdgeSource d jids e,
                              target := toString e.child_id, edgeType := "smoothstep" }],
                  acc.2 ++ [(e.family_id, e.child_id)])
          else acc) acc).1, ∃ e ∈ d.edges,
        hasPos p e.parent_id = true ∧ hasPos p e.child_id = true ∧
        oe.id = childEdgeId e ∧ oe.target = toString e.child_id ∧
        oe.source = childEdgeSource d jids e := by
    intro es
    induction es with
    | nil =>
        intro _ acc hacc
        exact hacc
    | cons e rest ih =>
        intro hsub acc hacc
        simp only [List.foldl_cons]
        refine ih (fun e' he' => hsub e' (List.mem_cons_of_mem _ he')) _ ?_
        split
        · next hcond =>
            split
            · exact hacc
            · intro oe hoe
              rcases List.mem_append.mp hoe with hoe | hoe
              · exact hacc oe hoe
              · simp only [List.mem_singleton] at hoe
                subst hoe
                exact ⟨e, hsub e (List.mem_cons_self _ _), hcond.1, hcond.2,
                  rfl, rfl, rfl⟩
        · exact hacc
  intro oe hoe
  exact main d.edges (fun _ he => he) ([], []) (by simp) oe hoe

/-! ## Support lemmas for the suppression rule and pass (a) -/

theorem getMerged_sub_mergedAt (d : TreeData) (c2 : TreeCouple)
    (hc2 : c2 ∈ d.couples) (hlen : c2.partner_ids.length = 2) :
    ∀ k ∈ getMergedChildren d c2, k ∈ mergedAt d (coupleKey c2.partner_ids) := by
  intro k hk
  unfold getMergedChildren at hk
  by_cases hme : mergedAt d (coupleKey c2.partner_ids) = []
  · rw [if_neg (by simp [hme])] at hk
    exact mem_mergedAt_of_children d hc2 hk
  · rw [if_pos ⟨hlen, hme⟩] at hk
    exact hk

theorem validPartners_single {p : List (Nat × Pos)} {cpl : TreeCouple} {q : Nat}
    (hq : cpl.partner_ids = [q]) (hpos : (alGet p q).isSome) :
    validPartners p cpl = [q] := by
  unfold validPartners
  rw [hq]
  simp [List.filter, hasPos, hpos]

theorem coveredBy_of_covering (d : TreeData) (kids : List Nat) (q : Nat)
    (c2 : TreeCouple) (hc2 : c2 ∈ d.couples) (hlen : c2.partner_ids.length = 2)
    (hqin : q ∈ c2.partner_ids)
    (hcov : ∀ k ∈ kids, k ∈ mergedAt d (coupleKey c2.partner_ids)) :
    coveredBy d kids q = true := by
  unfold coveredBy
  rw [List.any_eq_true]
  exact ⟨c2, hc2, by simp only [decide_eq_true_eq]; exact ⟨hlen, hqin, hcov⟩⟩

theorem suppressed_skips (d : TreeData) (p : List (Nat × Pos)) (cpl : TreeCouple)
    (q : Nat) (hq : cpl.partner_ids = [q]) (hpos : (alGet p q).isSome)
    (hcov : coveredBy d (getMergedChildren d cpl) q = true) :
    stepA d p cpl = p ∧ stepB d p cpl = p ∧ junctionFor d p cpl = none := by
  have hvps : validPartners p cpl = [q] := validPartners_single hq hpos
  by_cases hkids : getMergedChildren d cpl = []
  · refine ⟨?_, ?_, ?_⟩
    · simp only [stepA]
      rw [if_pos hkids]
    · simp only [stepB]
      rw [if_pos hkids]
    · simp only [junctionFor]
      rw [if_pos hkids]
  · have hguard : (validPartners p cpl).length = 1 ∧
        coveredBy d (getMergedChildren d cpl) ((validPartners p cpl).headD 0) = true := by
      rw [hvps]
      exact ⟨rfl, hcov⟩
    have hvne : validPartners p cpl ≠ [] := by
      rw [hvps]
      simp
    refine ⟨?_, ?_, ?_⟩
    · simp only [stepA]
      rw [if_neg hkids, if_neg hvne, if_pos hguard]
    · simp only [stepB]
      rw [if_neg hkids, if_neg hvne, if_pos hguard]
    · simp only [junctionFor]
      rw [if_neg hkids, if_neg hvne, if_pos hguard]

theorem validPartners_pair {p : List (Nat × Pos)} {c : TreeCouple} {a b : Nat}
    (hab : c.partner_ids = [a, b]) (hpa : (alGet p a).isSome)
    (hpb : (alGet p b).isSome) : validPartners p c = [a, b] := by
  unfold validPartners
  rw [hab]
  simp [List.filter, hasPos, hpa, hpb]

theorem stepA_two_partner (d : TreeData) (p : List (Nat × Pos)) (c : TreeCouple)
    (a b : Nat) (hab : c.partner_ids = [a, b]) (hne : a ≠ b)
    (hpa : (alGet p a).isSome) (hpb : (alGet p b).isSome)
    (hkids : getMergedChildren d c ≠ [])
    (hxs : childXsOf p (getMergedChildren d c) ≠ []) :
    xAt (stepA d p c) a
      = some ((listMin (childXsOf p (getMergedChildren d c))
          + listMax (childXsOf p (getMergedChildren d c)) + NODE_WIDTH) / 2
          - (NODE_WIDTH * 2 + COUPLE_GAP) / 2)
    ∧ xAt (stepA d p c) b
      = some ((listMin (childXsOf p (getMergedChildren d c))
          + listMax (childXsOf p (getMergedChildren d c)) + NODE_WIDTH) / 2
          - (NODE_WIDTH * 2 + COUPLE_GAP) / 2 + NODE_WIDTH + COUPLE_GAP) := by
  have hvps : validPartners p c = [a, b] := validPartners_pair hab hpa hpb
  have hvne : validPartners p c ≠ [] := by
    rw [hvps]
    simp
  have hguard : ¬((validPartners p c).length = 1 ∧
      coveredBy d (getMergedChildren d c) ((validPartners p c).headD 0) = true) := by
    rw [hvps]
    simp
  have hstep : stepA d p c
      = alSet (alSet p a
          ⟨(listMin (childXsOf p (getMergedChildren d c))
              + listMax (childXsOf p (getMergedChildren d c)) + NODE_WIDTH) / 2
              - (NODE_WIDTH * 2 + COUPLE_GAP) / 2, (posGetD p a).y⟩) b
          ⟨(listMin (childXsOf p (getMergedChildren d c))
              + listMax (childXsOf p (getMergedChildren d c)) + NODE_WIDTH) / 2
              - (NODE_WIDTH * 2 + COUPLE_GAP) / 2 + NODE_WIDTH + COUPLE_GAP,
            (posGetD (alSet p a
              ⟨(listMin (childXsOf p (getMergedChildren d c))
                  + listMax (childXsOf p (getMergedChildren d c)) + NODE_WIDTH) / 2
                  - (NODE_WIDTH * 2 + COUPLE_GAP) / 2, (posGetD p a).y⟩) b).y⟩ := by
    simp only [stepA]
    rw [if_neg hkids, if_neg hvne, if_neg hguard, if_neg hxs, hvps]
  rw [hstep]
  constructor
  · unfold xAt
    rw [alGet_alSet_ne _ _ _ _ hne, alGet_alSet_self]
    rfl
  · unfold xAt
    rw [alGet_alSet_self]
    rfl

/-! ## Concrete example data -/

def mkNode (i : Nat) (g : Int) : TreeNode := ⟨i, "person", g⟩

def mkEdge (pa c f : Nat) : TreeEdge := ⟨pa, c, f, Relationship.biological⟩

def mkCouple (f : Nat) (ps : List Nat) : TreeCouple := ⟨f, ps, none⟩

/-- Couple (1,2) with children {3,4} and a 1-partner family (2) with
child {5}: the blended-family merge scenario. -/
def blendedData : TreeData :=
  ⟨1, [mkNode 1 0, mkNode 2 0, mkNode 3 1, mkNode 4 1, mkNode 5 1],
   [mkEdge 1 3 1, mkEdge 1 4 1, mkEdge 2 5 2],
   [mkCouple 1 [1, 2], mkCouple 2 [2]]⟩

/-- Partners 1 and 2 with a single child 3: the centering scenario. -/
def singleChildData : TreeData :=
  ⟨1, [mkNode 1 0, mkNode 2 0, mkNode 3 1],
   [mkEdge 1 3 1], [mkCouple 1 [1, 2]]⟩

/-- Child 9 recorded under two disjoint 2-partner couples (1,2) and (4,5):
the ambiguous-merge data anomaly. -/
def doubleFamilyData : TreeData :=
  ⟨1, [mkNode 1 0, mkNode 2 0, mkNode 4 0, mkNode 5 0, mkNode 9 1],
   [mkEdge 1 9 1, mkEdge 4 9 2],
   [mkCouple 1 [1, 2], mkCouple 2 [4, 5]]⟩

/-! ## Support lemmas for the margin and banding claims -/

theorem person_filter (d : TreeData) :
    (computeTreeLayout d).nodes.filter (fun rn => decide (rn.nodeType = "personNode"))
      = d.nodes.map (personRF d) := by
  rw [computeTreeLayout_nodes, List.filter_append]
  have h1 : (d.nodes.map (personRF d)).filter
      (fun rn => decide (rn.nodeType = "personNode")) = d.nodes.map (personRF d) := by
    refine List.filter_eq_self.mpr ?_
    intro rn hrn
    rcases List.mem_map.mp hrn with ⟨n, _, rfl⟩
    simp [personRF]
  have h2 : (junctionNodes d (finalPositions d)).filter
      (fun rn => decide (rn.nodeType = "personNode")) = [] := by
    rw [List.filter_eq_nil_iff]
    intro rn hrn
    rcases List.mem_filterMap.mp hrn with ⟨c, _, hj⟩
    have hshape := (junctionFor_shape d _ c hj).1
    simp [hshape]
  rw [h1, h2, List.append_nil]

theorem personRF_position (d : TreeData) {n : TreeNode} (h : n ∈ d.nodes) :
    alGet (finalPositions d) n.id = some (personRF d n).position := by
  obtain ⟨pos, hpos⟩ := Option.isSome_iff_exists.mp (finalPositions_isSome d h)
  rw [hpos]
  unfold personRF
  rw [posGetD_eq hpos]

theorem centered_ne_nil (d : TreeData) (h : d.nodes ≠ []) :
    centered d (initialPositions d) ≠ [] := by
  obtain ⟨n0, hn0⟩ := List.exists_mem_of_ne_nil d.nodes h
  have hsome0 : (alGet (centered d (initialPositions d)) n0.id).isSome := by
    rw [isSome_centered]
    exact initialPositions_isSome d hn0
  intro hnil
  rw [hnil] at hsome0
  simp [alGet] at hsome0

theorem layout_min_x (d : TreeData) (h : d.nodes ≠ []) :
    listMin ((d.nodes.map (personRF d)).map fun rn => rn.position.x) = 40 := by
  have hq : finalPositions d = normalize (centered d (initialPositions d)) := rfl
  have hpcne : centered d (initialPositions d) ≠ [] := centered_ne_nil d h
  have hminq : listMin ((normalize (centered d (initialPositions d))).map fun e => e.2.x)
      = 40 := normalize_min_x _ hpcne
  have hub : ∀ v ∈ (d.nodes.map (personRF d)).map (fun rn => rn.position.x), 40 ≤ v := by
    intro v hv
    rcases List.mem_map.mp hv with ⟨rn, hrn, rfl⟩
    rcases List.mem_map.mp hrn with ⟨n, hn, rfl⟩
    exact normalize_x_ge _ n.id _ (hq ▸ personRF_position d hn)
  have hqne : (normalize (centered d (initialPositions d))).map (fun e => e.2.x) ≠ [] := by
    simp only [ne_eq, List.map_eq_nil_iff]
    intro hnil
    exact hpcne (by simpa [normalize, List.map_eq_nil_iff] using hnil)
  have hatt := listMin_mem hqne
  rw [hminq] at hatt
  rcases List.mem_map.mp hatt with ⟨e, he, hex⟩
  have hekey : (alGet (finalPositions d) e.1).isSome := by
    rw [isSome_alGet_iff_mem_keys]
    exact List.mem_map_of_mem Prod.fst (hq ▸ he)
  obtain ⟨n, hn, hnid⟩ := finalPositions_ids d e.1 hekey
  have hget : alGet (finalPositions d) e.1 = some e.2 :=
    alGet_of_mem_of_nodup (finalPositions_nodup_keys d) (hq ▸ he)
  have hmemx : (40 : ℚ) ∈ (d.nodes.map (personRF d)).map fun rn => rn.position.x := by
    refine List.mem_map.mpr ⟨personRF d n, List.mem_map_of_mem _ hn, ?_⟩
    have hpp := personRF_position d hn
    rw [hnid, hget] at hpp
    injection hpp with hpp
    rw [← hpp]
    exact hex
  have hle := listMin_le hmemx
  have hge := le_listMin (fun hnil => by rw [hnil] at hmemx; simp at hmemx) hub
  linarith

theorem layout_min_y (d : TreeData) (h : d.nodes ≠ []) :
    listMin ((d.nodes.map (personRF d)).map fun rn => rn.position.y) = 40 := by
  have hq : finalPositions d = normalize (centered d (initialPositions d)) := rfl
  have hpcne : centered d (initialPositions d) ≠ [] := centered_ne_nil d h
  have hminq : listMin ((normalize (centered d (initialPositions d))).map fun e => e.2.y)
      = 40 := normalize_min_y _ hpcne
  have hub : ∀ v ∈ (d.nodes.map (personRF d)).map (fun rn => rn.position.y), 40 ≤ v := by
    intro v hv
    rcases List.mem_map.mp hv with ⟨rn, hrn, rfl⟩
    rcases List.mem_map.mp hrn with ⟨n, hn, rfl⟩
    exact normalize_y_ge _ n.id _ (hq ▸ personRF_position d hn)
  have hqne : (normalize (centered d (initialPositions d))).map (fun e => e.2.y) ≠ [] := by
    simp only [ne_eq, List.map_eq_nil_iff]
    intro hnil
    exact hpcne (by simpa [normalize, List.map_eq_nil_iff] using hnil)
  have hatt := listMin_mem hqne
  rw [hminq] at hatt
  rcases List.mem_map.mp hatt with ⟨e, he, hey⟩
  have hekey : (alGet (finalPositions d) e.1).isSome := by
    rw [isSome_alGet_iff_mem_keys]
    exact List.mem_map_of_mem Prod.fst (hq ▸ he)
  obtain ⟨n, hn, hnid⟩ := finalPositions_ids d e.1 hekey
  have hget : alGet (finalPositions d) e.1 = some e.2 :=
    alGet_of_mem_of_nodup (finalPositions_nodup_keys d) (hq ▸ he)
  have hmemy : (40 : ℚ) ∈ (d.nodes.map (personRF d)).map fun rn => rn.position.y := by
    refine List.mem_map.mpr ⟨personRF d n, List.mem_map_of_mem _ hn, ?_⟩
    have hpp := personRF_position d hn
    rw [hnid, hget] at hpp
    injection hpp with hpp
    rw [← hpp]
    exact hey
  have hle := listMin_le hmemy
  have hge := le_listMin (fun hnil => by rw [hnil] at hmemy; simp at hmemy) hub
  linarith

theorem finalPositions_y_formula (d : TreeData) (hnd : (d.nodes.map TreeNode.id).Nodup)
    {n : TreeNode} (h : n ∈ d.nodes) :
    (personRF d n).position.y = (n.generation : ℚ) * (NODE_HEIGHT + V_GAP)
      + (40 - listMin ((centered d (initialPositions d)).map fun e => e.2.y)) := by
  have hyc : yAt (centered d (initialPositions d)) n.id
      = some ((n.generation : ℚ) * (NODE_HEIGHT + V_GAP)) := by
    rw [centered_yAt]
    exact initialPositions_y d hnd h
  unfold yAt at hyc
  rcases hpc : alGet (centered d (initialPositions d)) n.id with _ | pos
  · rw [hpc] at hyc
    simp at hyc
  · rw [hpc] at hyc
    simp only [Option.map_some'] at hyc
    injection hyc with hyc
    have hq : alGet (finalPositions d) n.id = some
        (⟨pos.x - listMin ((centered d (initialPositions d)).map fun e => e.2.x) + 40,
          pos.y - listMin ((centered d (initialPositions d)).map fun e => e.2.y) + 40⟩ : Pos) := by
      show alGet (normalize (centered d (initialPositions d))) n.id = _
      rw [alGet_normalize, hpc]
      rfl
    have hpp := personRF_position d h
    rw [hq] at hpp
    injection hpp with hpp
    rw [← hpp, hyc]
    ring

/-! ## The claims -/

/-- C1: for every input and every 2-partner couple C in it, the merged child
set used by the layout (`getMergedChildren` applied to C) equals the union
of C's own children (per the edges with C's family id) with the children of
every other family record whose partner set is a non-empty subset of C's
partner set; in particular, in a tree containing couple (1,2) with children
{3,4} and a separate 1-partner family (2) with child 5, child 5 belongs to
the merged sibling group of couple (1,2). -/
theorem claim_C1_merged_children :
    (∀ (d : TreeData) (C : TreeCouple), C ∈ d.couples → C.partner_ids.length = 2 →
      ∀ k, k ∈ getMergedChildren d C
        ↔ k ∈ childrenOf d C.family_id
          ∨ ∃ c' ∈ d.couples, c'.family_id ≠ C.family_id ∧ c'.partner_ids ≠ [] ∧
              (∀ x ∈ c'.partner_ids, x ∈ C.partner_ids) ∧ k ∈ childrenOf d c'.family_id)
    ∧ 5 ∈ getMergedChildren blendedData (mkCouple 1 [1, 2]) :=
  ⟨fun d C hC h2 k => getMergedChildren_iff d C hC h2 k, by decide⟩

/-- Witness for C1: the characterization applied to the blended-family data
at couple (1,2) and child 5. -/
theorem claim_C1_merged_children_witness :
    5 ∈ getMergedChildren blendedData (mkCouple 1 [1, 2])
      ↔ 5 ∈ childrenOf blendedData (mkCouple 1 [1, 2]).family_id
        ∨ ∃ c' ∈ blendedData.couples,
            c'.family_id ≠ (mkCouple 1 [1, 2]).family_id ∧ c'.partner_ids ≠ [] ∧
            (∀ x ∈ c'.partner_ids, x ∈ (mkCouple 1 [1, 2]).partner_ids) ∧
            5 ∈ childrenOf blendedData c'.family_id :=
  claim_C1_merged_children.1 blendedData (mkCouple 1 [1, 2]) (by decide) rfl 5

/-- C2: in each centering pass, a 2-partner couple with positioned partners,
a non-empty merged child set and at least one positioned merged child is
recentered from the min/max center of its merged children's x positions:
its first partner lands at that center minus half the couple width, the
second one node width plus the couple gap further, so the two partners are
symmetric around the center at couple-gap spacing; and in the literal
scenario (partners at provisional x = 0 and x = 170 with a single child),
after the 3-pass centering, the midpoint of the partners' x plus half the
node width equals the child's x plus half the node width. -/
theorem claim_C2_centering :
    (∀ (d : TreeData) (p : List (Nat × Pos)) (c : TreeCouple) (a b : Nat),
      c.partner_ids = [a, b] → a ≠ b →
      (alGet p a).isSome → (alGet p b).isSome →
      getMergedChildren d c ≠ [] →
      childXsOf p (getMergedChildren d c) ≠ [] →
      ∃ xa xb : ℚ,
        xAt (stepA d p c) a = some xa ∧ xAt (stepA d p c) b = some xb ∧
        xa = (listMin (childXsOf p (getMergedChildren d c))
              + listMax (childXsOf p (getMergedChildren d c)) + NODE_WIDTH) / 2
              - (NODE_WIDTH * 2 + COUPLE_GAP) / 2 ∧
        xb = xa + NODE_WIDTH + COUPLE_GAP ∧
        (xa + NODE_WIDTH / 2) + (xb + NODE_WIDTH / 2)
          = 2 * ((listMin (childXsOf p (getMergedChildren d c))
              + listMax (childXsOf p (getMergedChildren d c)) + NODE_WIDTH) / 2) ∧
        xb - (xa + NODE_WIDTH) = COUPLE_GAP)
    ∧ xAt (initialPositions singleChildData) 1 = some 0
    ∧ xAt (initialPositions singleChildData) 2 = some 170
    ∧ ((posGetD (centered singleChildData (initialPositions singleChildData)) 1).x
        + (posGetD (centered singleChildData (initialPositions singleChildData)) 2).x) / 2
        + NODE_WIDTH / 2
      = (posGetD (centered singleChildData (initialPositions singleChildData)) 3).x
        + NODE_WIDTH / 2 := by
  refine ⟨?_, by decide, by decide, by decide⟩
  intro d p c a b hab hne hpa hpb hkids hxs
  obtain ⟨h1, h2⟩ := stepA_two_partner d p c a b hab hne hpa hpb hkids hxs
  exact ⟨_, _, h1, h2, rfl, by ring, by ring, by ring⟩

/-- Witness for C2: the pass-(a) recentering applied to the single-child
scenario at its provisional positions. -/
theorem claim_C2_centering_witness :
    ∃ xa xb : ℚ,
      xAt (stepA singleChildData (initialPositions singleChildData)
        (mkCouple 1 [1, 2])) 1 = some xa ∧
      xAt (stepA singleChildData (initialPositions singleChildData)
        (mkCouple 1 [1, 2])) 2 = some xb ∧
      xa = (listMin (childXsOf (initialPositions singleChildData)
              (getMergedChildren singleChildData (mkCouple 1 [1, 2])))
            + listMax (childXsOf (initialPositions singleChildData)
              (getMergedChildren singleChildData (mkCouple 1 [1, 2]))) + NODE_WIDTH) / 2
            - (NODE_WIDTH * 2 + COUPLE_GAP) / 2 ∧
      xb = xa + NODE_WIDTH + COUPLE_GAP ∧
      (xa + NODE_WIDTH / 2) + (xb + NODE_WIDTH / 2)
        = 2 * ((listMin (childXsOf (initialPositions singleChildData)
              (getMergedChildren singleChildData (mkCouple 1 [1, 2])))
            + listMax (childXsOf (initialPositions singleChildData)
              (getMergedChildren singleChildData (mkCouple 1 [1, 2]))) + NODE_WIDTH) / 2) ∧
      xb - (xa + NODE_WIDTH) = COUPLE_GAP :=
  claim_C2_centering.1 singleChildData (initialPositions singleChildData)
    (mkCouple 1 [1, 2]) 1 2 rfl (by decide) (by decide) (by decide) (by decide) (by decide)

/-- C3 counterexample: in `doubleFamilyData`, child 9 qualifies under the
two disjoint 2-partner couples with family ids 1 and 2; contrary to the
claim the child is not excluded from the higher-family-id couple's sibling
block — it lies in couple 2's merged child set — and its family-2 edge is
routed to that couple's own junction-2, not to the lower couple's
junction-1. -/
theorem claim_C3_tiebreak_counterexample :
    9 ∈ getMergedChildren doubleFamilyData (mkCouple 2 [4, 5])
    ∧ ({ id := "edge-2-9", source := "junction-2", target := "9",
         edgeType := "smoothstep" } : RFEdge) ∈ (computeTreeLayout doubleFamilyData).edges
    ∧ ({ id := "edge-2-9", source := "junction-1", target := "9",
         edgeType := "smoothstep" } : RFEdge) ∉ (computeTreeLayout doubleFamilyData).edges :=
  ⟨by decide, by decide, by decide⟩

/-- C3 amended: a child recorded as a child of two different 2-partner
couples is included in the merged child sets of BOTH couples — no
lower-family-id tie-break or exclusive assignment occurs — and every
emitted child edge whose own family has a junction is routed to that
family's junction. -/
theorem claim_C3_tiebreak_amended (d : TreeData) (c1 c2 : TreeCouple) (k : Nat)
    (hc1 : c1 ∈ d.couples) (hc2 : c2 ∈ d.couples)
    (hl1 : c1.partner_ids.length = 2) (hl2 : c2.partner_ids.length = 2)
    (hk1 : k ∈ childrenOf d c1.family_id) (hk2 : k ∈ childrenOf d c2.family_id) :
    k ∈ getMergedChildren d c1 ∧ k ∈ getMergedChildren d c2
    ∧ ∀ (jids : List (Nat × String)) (e : TreeEdge) (jid : String),
        alGet jids e.family_id = some jid → childEdgeSource d jids e = jid :=
  ⟨(getMergedChildren_iff d c1 hc1 hl1 k).mpr (Or.inl hk1),
    (getMergedChildren_iff d c2 hc2 hl2 k).mpr (Or.inl hk2),
    fun jids e jid h => childEdgeSource_of_junction d jids e jid h⟩

/-- Witness for the amended C3: child 9 of `doubleFamilyData` is in both
couples' merged child sets. -/
theorem claim_C3_tiebreak_amended_witness :
    9 ∈ getMergedChildren doubleFamilyData (mkCouple 1 [1, 2])
    ∧ 9 ∈ getMergedChildren doubleFamilyData (mkCouple 2 [4, 5]) := by
  have h := claim_C3_tiebreak_amended doubleFamilyData (mkCouple 1 [1, 2])
    (mkCouple 2 [4, 5]) 9 (by decide) (by decide) rfl rfl (by decide) (by decide)
  exact ⟨h.1, h.2.1⟩

/-- C4: a 1-partner family whose sole positioned partner also belongs to a
2-partner couple of the input whose merged child set contains all of the
1-partner family's merged children is suppressed from independent layout:
centering pass (a) leaves the position table unchanged, centering pass (b)
leaves it unchanged, and the family receives no junction of its own. -/
theorem claim_C4_suppression (d : TreeData) (p : List (Nat × Pos))
    (cpl : TreeCouple) (q : Nat) (hq : cpl.partner_ids = [q])
    (hpos : (alGet p q).isSome) (c2 : TreeCouple) (hc2 : c2 ∈ d.couples)
    (hlen : c2.partner_ids.length = 2) (hqin : q ∈ c2.partner_ids)
    (hcov : ∀ k ∈ getMergedChildren d cpl, k ∈ getMergedChildren d c2) :
    stepA d p cpl = p ∧ stepB d p cpl = p ∧ junctionFor d p cpl = none :=
  suppressed_skips d p cpl q hq hpos
    (coveredBy_of_covering d _ q c2 hc2 hlen hqin
      fun k hk => getMerged_sub_mergedAt d c2 hc2 hlen k (hcov k hk))

/-- Witness for C4: the 1-partner family (2) of the blended-family data is
suppressed because couple (1,2) covers its children. -/
theorem claim_C4_suppression_witness :
    stepA blendedData (initialPositions blendedData) (mkCouple 2 [2])
        = initialPositions blendedData
    ∧ stepB blendedData (initialPositions blendedData) (mkCouple 2 [2])
        = initialPositions blendedData
    ∧ junctionFor blendedData (initialPositions blendedData) (mkCouple 2 [2]) = none :=
  claim_C4_suppression blendedData (initialPositions blendedData) (mkCouple 2 [2]) 2 rfl
    (by decide) (mkCouple 1 [1, 2]) (by decide) rfl (by decide) (by decide)

/-- C5: a couple of the input with a non-empty merged child set that is not
suppressed gets exactly one synthetic junction node: `junctionFor` yields
one node whose id is junction-(family id), whose payload is the junction
marker, whose horizontal center (x plus half the junction size) is the
midpoint (min + max + node width)/2 of its positioned partners' x
coordinates (a lone parent's center when only one partner is positioned),
and whose y is the first positioned partner's y plus the fixed offset
NODE_HEIGHT - JUNCTION_DROP; the node appears in the layout output, and
every emitted child edge of a family that has a junction takes that
junction as its source. -/
theorem claim_C5_junction (d : TreeData) (c : TreeCouple) (hc : c ∈ d.couples)
    (h1 : getMergedChildren d c ≠ [])
    (h2 : validPartners (finalPositions d) c ≠ [])
    (h3 : ¬((validPartners (finalPositions d) c).length = 1 ∧
      coveredBy d (getMergedChildren d c)
        ((validPartners (finalPositions d) c).headD 0) = true)) :
    ∃ j : RFNode, junctionFor d (finalPositions d) c = some j
      ∧ j ∈ (computeTreeLayout d).nodes
      ∧ j.id = "junction-" ++ toString c.family_id
      ∧ j.data = RFNodeData.junction
      ∧ j.position.x + JUNCTION_SIZE / 2
          = (listMin ((validPartners (finalPositions d) c).map
                fun id => (posGetD (finalPositions d) id).x)
              + listMax ((validPartners (finalPositions d) c).map
                fun id => (posGetD (finalPositions d) id).x) + NODE_WIDTH) / 2
      ∧ j.position.y
          = (posGetD (finalPositions d)
              ((validPartners (finalPositions d) c).headD 0)).y
              + (NODE_HEIGHT - JUNCTION_DROP)
      ∧ ∀ (e : TreeEdge) (jid : String),
          alGet (junctionIds d (finalPositions d)) e.family_id = some jid →
          childEdgeSource d (junctionIds d (finalPositions d)) e = jid := by
  refine ⟨_, junctionFor_eq_some d _ c h1 h2 h3, ?_, rfl, rfl, by ring, by ring,
    fun e jid h => childEdgeSource_of_junction d _ e jid h⟩
  rw [computeTreeLayout_nodes]
  refine List.mem_append.mpr (Or.inr ?_)
  exact List.mem_filterMap.mpr ⟨c, hc, junctionFor_eq_some d _ c h1 h2 h3⟩

/-- Witness for C5: the junction of couple (1,2) in the single-child
scenario. -/
theorem claim_C5_junction_witness :
    ∃ j : RFNode,
      junctionFor singleChildData (finalPositions singleChildData)
        (mkCouple 1 [1, 2]) = some j
      ∧ j ∈ (computeTreeLayout singleChildData).nodes
      ∧ j.id = "junction-" ++ toString (mkCouple 1 [1, 2]).family_id
      ∧ j.data = RFNodeData.junction
      ∧ j.position.x + JUNCTION_SIZE / 2
          = (listMin ((validPartners (finalPositions singleChildData)
                (mkCouple 1 [1, 2])).map
                fun id => (posGetD (finalPositions singleChildData) id).x)
              + listMax ((validPartners (finalPositions singleChildData)
                (mkCouple 1 [1, 2])).map
                fun id => (posGetD (finalPositions singleChildData) id).x)
              + NODE_WIDTH) / 2
      ∧ j.position.y
          = (posGetD (finalPositions singleChildData)
              ((validPartners (finalPositions singleChildData)
                (mkCouple 1 [1, 2])).headD 0)).y
              + (NODE_HEIGHT - JUNCTION_DROP)
      ∧ ∀ (e : TreeEdge) (jid : String),
          alGet (junctionIds singleChildData (finalPositions singleChildData))
              e.family_id = some jid →
          childEdgeSource singleChildData
              (junctionIds singleChildData (finalPositions singleChildData)) e = jid :=
  claim_C5_junction singleChildData (mkCouple 1 [1, 2]) (by decide) (by decide)
    (by decide) (by decide)

/-- C6: for every input with at least one node, the minimum x over the
returned person nodes' positions equals the fixed margin 40, and so does
the minimum y. -/
theorem claim_C6_margin (d : TreeData) (h : d.nodes ≠ []) :
    listMin (((computeTreeLayout d).nodes.filter
        (fun rn => decide (rn.nodeType = "personNode"))).map fun rn => rn.position.x) = 40
    ∧ listMin (((computeTreeLayout d).nodes.filter
        (fun rn => decide (rn.nodeType = "personNode"))).map fun rn => rn.position.y) = 40 := by
  rw [person_filter]
  exact ⟨layout_min_x d h, layout_min_y d h⟩

/-- Witness for C6: applied to the blended-family data. -/
theorem claim_C6_margin_witness :
    listMin (((computeTreeLayout blendedData).nodes.filter
        (fun rn => decide (rn.nodeType = "personNode"))).map fun rn => rn.position.x) = 40
    ∧ listMin (((computeTreeLayout blendedData).nodes.filter
        (fun rn => decide (rn.nodeType = "personNode"))).map fun rn => rn.position.y) = 40 :=
  claim_C6_margin blendedData (by decide)

/-- C7: with unique node ids (the data model's invariant), each person
node's final y equals its generation times (node height + generation gap)
plus one shared normalization translation; consequently person nodes of
equal generation have equal final y, y is strictly increasing in the
generation, and the three centering passes never change any stored y
coordinate. -/
theorem claim_C7_banding (d : TreeData) (hnd : (d.nodes.map TreeNode.id).Nodup) :
    (∃ t : ℚ, ∀ n ∈ d.nodes, (personRF d n).position.y
        = (n.generation : ℚ) * (NODE_HEIGHT + V_GAP) + t)
    ∧ (∀ id, yAt (centered d (initialPositions d)) id = yAt (initialPositions d) id)
    ∧ (∀ n1 ∈ d.nodes, ∀ n2 ∈ d.nodes, n1.generation = n2.generation →
        (personRF d n1).position.y = (personRF d n2).position.y)
    ∧ (∀ n1 ∈ d.nodes, ∀ n2 ∈ d.nodes, n1.generation < n2.generation →
        (personRF d n1).position.y < (personRF d n2).position.y) := by
  refine ⟨⟨40 - listMin ((centered d (initialPositions d)).map fun e => e.2.y),
      fun n hn => finalPositions_y_formula d hnd hn⟩,
    fun id => centered_yAt d (initialPositions d) id, ?_, ?_⟩
  · intro n1 h1 n2 h2 hg
    rw [finalPositions_y_formula d hnd h1, finalPositions_y_formula d hnd h2, hg]
  · intro n1 h1 n2 h2 hg
    rw [finalPositions_y_formula d hnd h1, finalPositions_y_formula d hnd h2]
    have hcast : (n1.generation : ℚ) < (n2.generation : ℚ) := by exact_mod_cast hg
    have hpos : (0 : ℚ) < NODE_HEIGHT + V_GAP := by norm_num [NODE_HEIGHT, V_GAP]
    have := mul_lt_mul_of_pos_right hcast hpos
    linarith

/-- Witness for C7: the banding formula applied to the blended-family
data. -/
theorem claim_C7_banding_witness :
    ∃ t : ℚ, ∀ n ∈ blendedData.nodes, (personRF blendedData n).position.y
        = (n.generation : ℚ) * (NODE_HEIGHT + V_GAP) + t :=
  (claim_C7_banding blendedData (by decide)).1

/-- C8: the layout is deterministic — two invocations on identical
(nodes, edges, couples) input produce identical results; the model is a
pure function of the input with insertion-ordered containers, so no
iteration-order nondeterminism exists. -/
theorem claim_C8_deterministic (d1 d2 : TreeData) (h : d1 = d2) :
    computeTreeLayout d1 = computeTreeLayout d2 := by
  rw [h]

/-- Witness for C8: applied to the single-child scenario. -/
theorem claim_C8_deterministic_witness :
    computeTreeLayout singleChildData = computeTreeLayout singleChildData :=
  claim_C8_deterministic singleChildData singleChildData rfl

/-- C9: the checked pipeline — in which every partial-map access the source
performs with a non-null assertion becomes an Option bind that fails
exactly where JavaScript would throw — succeeds on every well-typed input
and agrees with the total model: the layout never throws. -/
theorem claim_C9_never_throws (d : TreeData) :
    computeTreeLayoutChecked d = some (computeTreeLayout d) :=
  computeTreeLayoutChecked_eq d

/-- C10: the output node list is exactly one positioned person node per
input node (in input order, nothing dropped or duplicated) followed by the
synthetic junctions; every input node has a position; the focus flag is set
on a person node iff its id equals the focus id; every non-person output
node is a junction; and every emitted child edge is justified by an input
edge with both endpoints positioned, so edges with missing endpoints
produce no output edge. -/
theorem claim_C10_output (d : TreeData) :
    ((computeTreeLayout d).nodes
        = d.nodes.map (personRF d) ++ junctionNodes d (finalPositions d))
    ∧ (∀ n ∈ d.nodes, (alGet (finalPositions d) n.id).isSome
        ∧ ((personRF d n).data = RFNodeData.person n true ↔ n.id = d.focus_id))
    ∧ (∀ rn ∈ (computeTreeLayout d).nodes,
        (∃ n ∈ d.nodes, rn = personRF d n) ∨ rn.data = RFNodeData.junction)
    ∧ (∀ oe ∈ buildChildEdges d (finalPositions d) (junctionIds d (finalPositions d)),
        ∃ e ∈ d.edges, hasPos (finalPositions d) e.parent_id = true
          ∧ hasPos (finalPositions d) e.child_id = true
          ∧ oe.id = childEdgeId e ∧ oe.target = toString e.child_id) := by
  refine ⟨computeTreeLayout_nodes d, ?_, ?_, ?_⟩
  · intro n hn
    refine ⟨finalPositions_isSome d hn, ?_⟩
    simp [personRF]
  · intro rn hrn
    rw [computeTreeLayout_nodes] at hrn
    rcases List.mem_append.mp hrn with hrn | hrn
    · rcases List.mem_map.mp hrn with ⟨n, hn, rfl⟩
      exact Or.inl ⟨n, hn, rfl⟩
    · rcases List.mem_filterMap.mp hrn with ⟨c, _, hj⟩
      exact Or.inr (junctionFor_shape d _ c hj).2.1
  · intro oe hoe
    obtain ⟨e, he, hp, hc, hid, htgt, _⟩ := buildChildEdges_sub d _ _ oe hoe
    exact ⟨e, he, hp, hc, hid, htgt⟩

/-- Witness for C10: the focus-flag and positioned-node facts at node 1 of
the blended-family data, plus the justification of its first emitted child
edge. -/
theorem claim_C10_output_witness :
    ((alGet (finalPositions blendedData) (mkNode 1 0).id).isSome
      ∧ ((personRF blendedData (mkNode 1 0)).data
          = RFNodeData.person (mkNode 1 0) true ↔ (mkNode 1 0).id = blendedData.focus_id))
    ∧ ∃ e ∈ blendedData.edges,
        hasPos (finalPositions blendedData) e.parent_id = true
        ∧ hasPos (finalPositions blendedData) e.child_id = true
        ∧ ({ id := "edge-1-3", source := "junction-1", target := "3",
             edgeType := "smoothstep" } : RFEdge).id = childEdgeId e
        ∧ ({ id := "edge-1-3", source := "junction-1", target := "3",
             edgeType := "smoothstep" } : RFEdge).target = toString e.child_id :=
  ⟨(claim_C10_output blendedData).2.1 (mkNode 1 0) (by decide),
    (claim_C10_output blendedData).2.2.2 _ (by decide)⟩

end TreeLayout
